import Mathlib

/-!
Shallow embedding of the parallel t-SNE core (bhtsne/tsne.cpp, bhtsne/vptree.h,
and the CUDA perplexity-search unit) over exact rational arithmetic.
Float values are modelled as `ℚ`; the float constants `FLT_MIN` / `FLT_MAX`
are the exact rational values of those IEEE-754 single-precision constants.
Transcendental library calls (`exp`, `log`) are taken as explicit function
parameters, since the C code calls out to libm for them; every property
proved below holds for an arbitrary choice of those functions (or, for the
claims that need it, for any nonnegative kernel function).
-/

/-- Exact value of the C constant `FLT_MIN` (2^(-126)), used by
`computeGaussianPerplexity` to seed `sum_P`. -/
def FLT_MIN : ℚ := 1 / 85070591730234615865843651857942052864

/-- Exact value of the C constant `FLT_MAX` ((2 - 2^(-23)) * 2^127), the
sentinel for an unset binary-search bound in the perplexity calibration. -/
def FLT_MAX : ℚ := 340282346638528859811704183484516925440

/-- Stand-in for `DBL_MAX` converted to `float` as done by
`float tau = DBL_MAX;` in `VpTree::search` (vptree.h line 97); the conversion
overflows to +inf, so any value exceeding every representable squared
distance is faithful.  We use 2^1024. -/
def DBL_MAX : ℚ := 2 ^ 1024

/-- A data point's coordinate block (`DataPoint::_x`, vptree.h lines 23-59);
the dimensionality is the list length. -/
abbrev Pt := List ℚ

/-- Embedding of `euclidean_distance_squared` (vptree.h lines 61-68): the
sum over dimensions of the squared coordinate differences.  The C loop runs
over `t1.dimensionality()` positions; for equal-dimension points (the only
way the program uses it) this is the zip of the two coordinate lists. -/
def euclidean_distance_squared (t1 t2 : Pt) : ℚ :=
  ((t1.zip t2).map (fun p => (p.1 - p.2) * (p.1 - p.2))).sum

namespace TSNE

/-- Modelled from the spec: the scalar `sign` helper used by the gain update
(tsne.cpp line 169).  Its definition lives in `tsne.h`, which is not part of
the provided sources; the usual three-valued sign is taken, and the claims
below only compare signs of equal arguments, so any sign convention with
`sign x = sign x` behaves identically. -/
def sign (x : ℚ) : ℚ := if x > 0 then 1 else if x < 0 then -1 else 0

/-- Embedding of one coordinate of the optimizer update (tsne.cpp lines
167-174): the gain is recomputed first and the fresh gain is what the
velocity update reads, exactly as in the C loop body. -/
def gradStepCoord (momentum eta g uy y dy : ℚ) : ℚ × ℚ × ℚ :=
  let g2 := if sign dy ≠ sign uy then g + 1/5 else g * (4/5) + 1/100
  let uy2 := momentum * uy - eta * g2 * dy
  (g2, uy2, y + uy2)

/-- Embedding of the per-iteration update loop `for i < N * no_dims`
(tsne.cpp lines 167-174) over the flat arrays `gains`, `uY`, `Y`, `dY`;
returns the updated `(gains, uY, Y)`. -/
def gradUpdate (momentum eta : ℚ) (gains uY Y dY : List ℚ) :
    List ℚ × List ℚ × List ℚ :=
  let n := gains.length
  ((List.range n).map (fun i =>
      (gradStepCoord momentum eta (gains.getD i 0) (uY.getD i 0)
        (Y.getD i 0) (dY.getD i 0)).1),
   (List.range n).map (fun i =>
      (gradStepCoord momentum eta (gains.getD i 0) (uY.getD i 0)
        (Y.getD i 0) (dY.getD i 0)).2.1),
   (List.range n).map (fun i =>
      (gradStepCoord momentum eta (gains.getD i 0) (uY.getD i 0)
        (Y.getD i 0) (dY.getD i 0)).2.2))

/-- The gain update as the spec's words describe it for comparison with the
code: multiplication by 0.8 bounded below by the floor 0.01 (claim C6's
reading of "multiplied by 0.8 with a floor of 0.01"). -/
def gainFloorClaim (g dy uy : ℚ) : ℚ :=
  if sign dy ≠ sign uy then g + 1/5 else max (g * (4/5)) (1/100)

/-- Embedding of `stop_lying_iter` selection (tsne.cpp lines 77 and 145-147):
`n_iter_early_exag` normally, `0` when the caller supplies a starting
embedding. -/
def stopLyingIter (init_from_Y : Bool) (n_iter_early_exag : ℕ) : ℕ :=
  if init_from_Y then 0 else n_iter_early_exag

/-- Embedding of the end-of-iteration affinity rescaling (tsne.cpp lines
180-184): at the end of iteration `iter = stop_lying_iter` every affinity
value is divided by the exaggeration factor, otherwise it is untouched. -/
def lieStep (ee : ℚ) (stop : ℕ) (v : ℚ) (iter : ℕ) : ℚ :=
  if iter = stop then v / ee else v

/-- The affinity value an entry holds when iteration `t` reads it inside
`computeGradient`: the entry starts exaggerated (`val *= early_exaggeration`,
tsne.cpp lines 140-142) and the `lieStep` rescaling runs at the end of each
earlier iteration. -/
def valP_used (v0 ee : ℚ) (stop t : ℕ) : ℚ :=
  (List.range t).foldl (lieStep ee stop) (v0 * ee)

/-- Embedding of `computeGradient` (tsne.cpp lines 221-292).  The affinity
graph is the CSR triple presented as rows of `(column, value)` pairs, the
embedding `Y` as rows of `no_dims` coordinates (the C code's flat
`n * no_dims + d` indexing row-major).  The Barnes-Hut tree query
`SplitTree::computeNonEdgeForces` lives in splittree.cpp, which is not among
the sources, so it enters as an opaque parameter `nonEdgeForces` giving each
point's negative-force row and `Q_n` contribution; `lg` is libm's `log`.
Returns `(dC, C)`: the gradient rows and the error value. -/
def computeGradient (P : List (List (ℕ × ℚ))) (Y : List (List ℚ))
    (no_dims : ℕ) (nonEdgeForces : ℕ → List ℚ × ℚ) (lg : ℚ → ℚ)
    (eval_error : Bool) : List (List ℚ) × ℚ :=
  let N := Y.length
  let posRow : ℕ → List ℚ := fun n =>
    (List.range no_dims).map (fun d =>
      ((P.getD n []).map (fun e =>
        let D := euclidean_distance_squared (Y.getD n []) (Y.getD e.1 [])
        (e.2 / (1 + D)) * ((Y.getD n []).getD d 0 - (Y.getD e.1 []).getD d 0))).sum)
  let sum_Q := ((List.range N).map (fun n => (nonEdgeForces n).2)).sum
  let dC := (List.range N).map (fun n =>
    (List.range no_dims).map (fun d =>
      (posRow n).getD d 0 - ((nonEdgeForces n).1.getD d 0) / sum_Q))
  let P_i_sum : ℚ := if eval_error then
      ((List.range N).map (fun n => ((P.getD n []).map Prod.snd).sum)).sum
    else 0
  let C0 : ℚ := if eval_error then
      ((List.range N).map (fun n => ((P.getD n []).map (fun e =>
        let D := euclidean_distance_squared (Y.getD n []) (Y.getD e.1 [])
        e.2 * lg ((e.2 + FLT_MIN) / ((1 / (1 + D)) + FLT_MIN)))).sum)).sum
    else 0
  (dC, C0 + P_i_sum * lg sum_Q)

/-- The tolerance `tol = 1e-5` of the perplexity binary search
(tsne.cpp line 394). -/
def tol : ℚ := 1 / 100000

/-- Embedding of the shared bisection update rule (tsne.cpp lines 417-436;
identically CUDA part_001 lines 54-72): given the entropy gap `Hdiff`,
either accept, or move one bound and double/halve toward an unset bound or
bisect between known bounds.  Returns `(found, beta, min_beta, max_beta)`. -/
def bisectUpdate (tolv Hdiff beta mn mx : ℚ) : Bool × ℚ × ℚ × ℚ :=
  if Hdiff < tolv ∧ -Hdiff < tolv then (true, beta, mn, mx)
  else if Hdiff > 0 then
    (false, if mx = FLT_MAX ∨ mx = -FLT_MAX then beta * 2 else (beta + mx) / 2,
      beta, mx)
  else
    (false, if mn = -FLT_MAX ∨ mn = FLT_MAX then beta / 2 else (beta + mn) / 2,
      mn, beta)

/-- Per-point calibration state of `computeGaussianPerplexity` (tsne.cpp
lines 389-397): the bandwidth, both search bounds, the convergence flag, the
iteration counter, and the kernel row / row sum of the most recent pass
(`cur_P`, `sum_P` are read after the loop, so they are part of the state). -/
structure CalibState where
  beta : ℚ
  min_beta : ℚ
  max_beta : ℚ
  found : Bool
  iter : ℕ
  curP : List ℚ
  sumP : ℚ

/-- One pass of the `while (!found && iter < 200)` body (tsne.cpp lines
398-440) for a point whose (self-excluded) squared neighbor distances are
`dists`: recompute the Gaussian kernel row with the current `beta`, seed the
row sum with `FLT_MIN`, form the entropy, and run the bisection update.
`e` and `lg` are libm's `exp` and `log`. -/
def calibBody (e lg : ℚ → ℚ) (perplexity : ℚ) (dists : List ℚ)
    (s : CalibState) : CalibState :=
  let curP := dists.map (fun d => e (-s.beta * d))
  let sumP := FLT_MIN + curP.sum
  let H0 := ((dists.zip curP).map (fun p => s.beta * (p.1 * p.2))).sum
  let H := H0 / sumP + lg sumP
  let Hdiff := H - lg perplexity
  let u := bisectUpdate tol Hdiff s.beta s.min_beta s.max_beta
  { beta := u.2.1, min_beta := u.2.2.1, max_beta := u.2.2.2,
    found := u.1, iter := s.iter + 1, curP := curP, sumP := sumP }

/-- The loop guard: a pass runs only while `found` is false; the fuel plays
the role of the remaining budget of the `iter < 200` guard (each executed
body increments `iter` by exactly one, so 200 units of fuel started at
`iter = 0` are the exact `while` semantics). -/
def calibStep (e lg : ℚ → ℚ) (perplexity : ℚ) (dists : List ℚ)
    (s : CalibState) : CalibState :=
  if s.found then s else calibBody e lg perplexity dists s

/-- The capped calibration loop (tsne.cpp line 398). -/
def calibLoop (e lg : ℚ → ℚ) (perplexity : ℚ) (dists : List ℚ) :
    ℕ → CalibState → CalibState
  | 0, s => s
  | n + 1, s => calibLoop e lg perplexity dists n (calibStep e lg perplexity dists s)

/-- Initial calibration state (tsne.cpp lines 390-393): `beta = 1`, bounds
at the float sentinels, not found, zero iterations.  `curP`/`sumP` are
uninitialized in C and the loop always runs at least one pass before they
are read; the placeholders here are likewise overwritten. -/
def calibInit : CalibState :=
  { beta := 1, min_beta := -FLT_MAX, max_beta := FLT_MAX, found := false,
    iter := 0, curP := [], sumP := 0 }

/-- Result of calibrating one point: the final loop state plus the emitted
CSR row (tsne.cpp lines 442-449). -/
structure CalibResult where
  state : CalibState
  cols : List ℕ
  vals : List ℚ

/-- Embedding of the per-point part of `computeGaussianPerplexity`
(tsne.cpp lines 380-449).  `neighbors`/`distances` are the `K + 1` nearest
neighbor indices and squared distances returned by the tree search; the
`m + 1` indexing drops the self-match at position 0.  After the loop the
row is divided by `sum_P` and emitted. -/
def computeGaussianPerplexityPoint (e lg : ℚ → ℚ) (perplexity : ℚ)
    (neighbors : List ℕ) (distances : List ℚ) : CalibResult :=
  let s := calibLoop e lg perplexity (distances.drop 1) 200 calibInit
  { state := s, cols := neighbors.drop 1,
    vals := s.curP.map (fun p => p / s.sumP) }

/-- The only diagnostic `computeGaussianPerplexity` can emit besides the
progress counter: the entry check `if (perplexity > K)` at tsne.cpp
line 335.  Nothing in the function reports calibration non-convergence. -/
def perplexityWarning (perplexity : ℚ) (K : ℕ) : Bool := perplexity > K

end TSNE

/-- Embedding of the CUDA per-point bisection kernel
`PerplexitySearchKernel` (part_001 lines 30-74) for one point: from the
negated entropy numerator and row sum it forms the entropy, compares with
the target, and applies the bisection update; when found it leaves the
bandwidth and bounds untouched.  Returns `(found, beta, lower, upper)`. -/
def PerplexitySearchKernel_update (lg : ℚ → ℚ)
    (beta lower upper neg_ent sum_P perplexity_target epsilon : ℚ) :
    Bool × ℚ × ℚ × ℚ :=
  let perplexity := neg_ent / sum_P + lg sum_P
  let perplexity_diff := perplexity - lg perplexity_target
  if perplexity_diff < epsilon ∧ -perplexity_diff < epsilon then
    (true, beta, lower, upper)
  else if perplexity_diff > 0 then
    (false,
      if upper = FLT_MAX ∨ upper = -FLT_MAX then beta * 2
      else (beta + upper) / 2,
      beta, upper)
  else
    (false,
      if lower = -FLT_MAX ∨ lower = FLT_MAX then beta / 2
      else (beta + lower) / 2,
      lower, beta)

/-- Embedding of the host routine `SearchPerplexity` (part_001 lines
77-139): the function prints a message and returns at line 88 before
touching any device data, so its entire calibration pipeline (lines 90-138)
is unreachable and the `pij` buffer is returned exactly as it came in. -/
def SearchPerplexity (pij squared_dist : List ℚ)
    (perplexity_target epsilon : ℚ)
    (num_points num_near_neighbors : ℕ) : List ℚ := pij

/-- Positivity and row nonnegativity carried by the calibration state: the
last computed row sum is strictly positive and the last kernel row is
entrywise nonnegative. -/
def CalibInv (s : TSNE.CalibState) : Prop :=
  0 < s.sumP ∧ ∀ p ∈ s.curP, 0 ≤ p

namespace TSNE

/-- The value of the first entry of `row` whose column is `n` — the value
`val_P[m]` picked up by the reciprocal scan of `symmetrizeMatrix`
(tsne.cpp lines 523-533).  The C fill loop does not break and overwrites
the same output cell on every match, so first- and last-match agree exactly
when the row's columns are distinct, which the claims assume (and which
k-NN rows satisfy). -/
def findVal (row : List (ℕ × ℚ)) (n : ℕ) : ℚ :=
  ((row.find? (fun f => f.1 == n)).map Prod.snd).getD 0

/-- The reciprocal-presence scan of `symmetrizeMatrix` (tsne.cpp lines
485-491 and 521-525): does row `c` of the directed graph contain column
`n`? -/
def present (P : List (List (ℕ × ℚ))) (c n : ℕ) : Bool :=
  (P.getD c []).any (fun f => f.1 == n)

/-- Append the pair of writes `sym(a) += (b, x)` and `sym(b) += (a, x)`
performed by `symmetrizeMatrix`'s fill pass (tsne.cpp lines 527-530 and
537-540).  When `a = b` the two C writes target the same cell (the offset
is only advanced once, line 546), which yields a single entry. -/
def pairAppend (a b : ℕ) (x : ℚ) (out : ℕ → List (ℕ × ℚ)) :
    ℕ → List (ℕ × ℚ) :=
  fun r => if r = a then out r ++ [(b, x)]
    else if r = b then out r ++ [(a, x)] else out r

/-- Processing of one directed edge `(n, c, v)` by the fill pass (tsne.cpp
lines 519-550): when the reciprocal exists the pair is written once, from
the row with the smaller index, with the summed value; when it does not,
both rows receive the one-directional value. -/
def symWrite (P : List (List (ℕ × ℚ))) (n : ℕ) (e : ℕ × ℚ)
    (out : ℕ → List (ℕ × ℚ)) : ℕ → List (ℕ × ℚ) :=
  if present P e.1 n then
    if n ≤ e.1 then pairAppend n e.1 (e.2 + findVal (P.getD e.1 []) n) out
    else out
  else pairAppend n e.1 e.2 out

/-- The inner loop over row `n`'s directed edges (tsne.cpp line 519). -/
def processRow (P : List (List (ℕ × ℚ))) (n : ℕ)
    (out : ℕ → List (ℕ × ℚ)) : ℕ → List (ℕ × ℚ) :=
  (P.getD n []).foldl (fun o e => symWrite P n e o) out

/-- The outer loop over all rows (tsne.cpp line 518), starting from empty
output rows; `symOut P r` is row `r` of the symmetric matrix before the
final halving, as the ordered list of cells the C code writes into row
`r`'s segment. -/
def symOut (P : List (List (ℕ × ℚ))) : ℕ → List (ℕ × ℚ) :=
  (List.range P.length).foldl (fun o n => processRow P n o) (fun _ => [])

/-- Embedding of `TSNE::symmetrizeMatrix` (tsne.cpp lines 471-566): run the
fill pass and then divide every stored value by two (lines 553-556). -/
def symmetrizeMatrix (P : List (List (ℕ × ℚ))) : List (List (ℕ × ℚ)) :=
  (List.range P.length).map (fun r => (symOut P r).map (fun e => (e.1, e.2 / 2)))

/-- The global sum of all stored values (tsne.cpp lines 117-120). -/
def csrTotal (P : List (List (ℕ × ℚ))) : ℚ :=
  (P.map (fun row => (row.map Prod.snd).sum)).sum

/-- The caller's global normalization after symmetrization
(tsne.cpp lines 117-123): every stored value is divided by the global
sum. -/
def normalizeCSR (P : List (List (ℕ × ℚ))) : List (List (ℕ × ℚ)) :=
  P.map (fun row => row.map (fun e => (e.1, e.2 / csrTotal P)))

/-- Every column index stored in the directed input graph is a valid row
index (true of the k-NN output rows the program feeds in). -/
def ColsBounded (P : List (List (ℕ × ℚ))) : Prop :=
  ∀ r, r < P.length → ∀ x ∈ P.getD r [], x.1 < P.length

/-- Every row of the directed input graph lists distinct columns (true of
the k-NN output rows: the neighbors of a point are distinct points). -/
def RowColsDistinct (P : List (List (ℕ × ℚ))) : Prop :=
  ∀ r, r < P.length → (P.getD r []).Pairwise (fun a b => a.1 ≠ b.1)

/-- Output-row function `out'` extends `out` entrywise. -/
def Sup (out out' : ℕ → List (ℕ × ℚ)) : Prop :=
  ∀ r, ∀ x ∈ out r, x ∈ out' r

/-- The mirror invariant: every stored cell `(c, v)` of row `r` has the
reciprocal cell `(r, v)` stored in row `c`. -/
def MirrorFn (out : ℕ → List (ℕ × ℚ)) : Prop :=
  ∀ r c v, (c, v) ∈ out r → (r, v) ∈ out c

/-- All stored column indices are below `N`. -/
def ColsLt (N : ℕ) (out : ℕ → List (ℕ × ℚ)) : Prop :=
  ∀ r, ∀ x ∈ out r, x.1 < N

end TSNE

namespace VpTree

/-- Single node of the vantage-point tree (vptree.h lines 118-133); `nil`
models a NULL child pointer.  `index` points into the (permuted) item
array, `threshold` is the median distance radius. -/
inductive VNode where
  | nil : VNode
  | node (index : ℕ) (threshold : ℚ) (left right : VNode) : VNode
deriving DecidableEq

/-- The `std::swap(_items[lower], _items[i])` of vptree.h line 172. -/
def listSwap (items : List Pt) (i j : ℕ) : List Pt :=
  (items.set i (items.getD j [])).set j (items.getD i [])

/-- In-place partial sort of the subrange `[lo, hi)` of the item array by
distance to `pivot`.  The C code runs `std::nth_element` around the median
of that range (vptree.h lines 175-179); fully sorting the range is one
legal `nth_element` outcome (same multiset, every element left of the
median no farther than it, every element right of it no nearer), and this
embedding fixes that outcome. -/
def sortRange (items : List Pt) (lo hi : ℕ) (pivot : Pt) : List Pt :=
  items.take lo ++
    ((((items.drop lo).take (hi - lo)).mergeSort
      (fun a b => euclidean_distance_squared pivot a ≤
        euclidean_distance_squared pivot b)) ++
     items.drop hi)

/-- Embedding of `buildFromPoints` (vptree.h lines 158-192).  The
`rand()`-based pivot choice `i ∈ [lower, upper - 1]` is abstracted into the
function `pick` (`lo + pick lo hi % (hi - lo)` ranges over the same set,
and every theorem below holds for every `pick`).  The C code mutates
`_items` in place; the embedding threads the permuted array through and
returns it next to the built subtree. -/
def buildFromPoints (pick : ℕ → ℕ → ℕ) (items : List Pt) (lo hi : ℕ) :
    List Pt × VNode :=
  if hi = lo then (items, .nil)
  else if hgt : hi - lo > 1 then
    let i := lo + pick lo hi % (hi - lo)
    let items1 := listSwap items lo i
    let median := (hi + lo) / 2
    let pivot := items1.getD lo []
    let items2 := sortRange items1 (lo + 1) hi pivot
    let thr := euclidean_distance_squared pivot (items2.getD median [])
    let r1 := buildFromPoints pick items2 (lo + 1) median
    let r2 := buildFromPoints pick r1.1 median hi
    (r2.1, .node lo thr r1.2 r2.2)
  else (items, .node lo 0 .nil .nil)
termination_by hi - lo
decreasing_by
  · omega
  · omega

/-- Embedding of `VpTree::create` (vptree.h lines 83-87). -/
def create (pick : ℕ → ℕ → ℕ) (pts : List Pt) : List Pt × VNode :=
  buildFromPoints pick pts 0 pts.length

/-- The intermediate-result priority queue (vptree.h lines 93-94 and
136-145) modelled as a list sorted by non-increasing distance whose head is
the heap's top (the farthest kept candidate); `push` inserts keeping the
order, `pop` removes the top. -/
def heapPush : List (ℕ × ℚ) → (ℕ × ℚ) → List (ℕ × ℚ)
  | [], x => [x]
  | y :: t, x => if x.2 ≤ y.2 then y :: heapPush t x else x :: y :: t

def heapPop (h : List (ℕ × ℚ)) : List (ℕ × ℚ) := h.tail

def heapTopD (h : List (ℕ × ℚ)) : ℚ := (h.headD (0, 0)).2

/-- The visit block of the recursive search (vptree.h lines 201-208): when
the node's distance beats `tau`, pop the farthest result if the heap is
full, push the node, and tighten `tau` to the new top when full. -/
def visit (k idx : ℕ) (dist : ℚ) (st : List (ℕ × ℚ) × ℚ) :
    List (ℕ × ℚ) × ℚ :=
  if dist < st.2 then
    let h1 := if st.1.length = k then heapPop st.1 else st.1
    let h2 := heapPush h1 (idx, dist)
    (h2, if h2.length = k then heapTopD h2 else st.2)
  else st

/-- Embedding of the recursive private `VpTree::search` (vptree.h lines
196-235): visit the node, return at a leaf, otherwise recurse into the
children under the branch-and-bound conditions; the C `tau` is a reference,
so the second child's condition reads the `tau` updated by the first
child's search — the state is threaded accordingly. -/
def searchNode (items : List Pt) (target : Pt) (k : ℕ) :
    VNode → List (ℕ × ℚ) × ℚ → List (ℕ × ℚ) × ℚ
  | .nil, st => st
  | .node idx thr l r, st =>
    let dist := euclidean_distance_squared (items.getD idx []) target
    let st1 := visit k idx dist st
    if l = VNode.nil ∧ r = VNode.nil then st1
    else if dist < thr then
      let st2 := if dist - st1.2 ≤ thr then searchNode items target k l st1
        else st1
      if dist + st2.2 ≥ thr then searchNode items target k r st2 else st2
    else
      let st2 := if dist + st1.2 ≥ thr then searchNode items target k r st1
        else st1
      if dist - st2.2 ≤ thr then searchNode items target k l st2 else st2

/-- Embedding of the public `VpTree::search` (vptree.h lines 90-113): run
the branch-and-bound from the root with `tau` initialized to the
(float-overflowed) `DBL_MAX`, then pop the heap into the result lists and
reverse them.  Popping a max-heap lists it top first, which is exactly the
model's sorted list read front to back. -/
def search (items : List Pt) (root : VNode) (target : Pt) (k : ℕ) :
    List Pt × List ℚ :=
  let st := searchNode items target k root ([], DBL_MAX)
  ((st.1.map (fun e => items.getD e.1 [])).reverse,
   (st.1.map (fun e => e.2)).reverse)

/-- Executable well-formedness of a built subtree over the final item
array: the node indexes its range's first position, and for a partitioned
node every left-range item is within the threshold distance of the pivot
and every right-range item at least that far (the invariant
`buildFromPoints` establishes through `nth_element`). -/
def wf (items : List Pt) : VNode → ℕ → ℕ → Bool
  | .nil, lo, hi => lo = hi
  | .node idx thr l r, lo, hi =>
    idx = lo ∧ lo < hi ∧ lo < items.length ∧
    (if hi = lo + 1 then l = VNode.nil ∧ r = VNode.nil
     else
       wf items l (lo + 1) ((hi + lo) / 2) &&
       wf items r ((hi + lo) / 2) hi &&
       ((List.range' (lo + 1) ((hi + lo) / 2 - (lo + 1))).all fun j =>
         euclidean_distance_squared (items.getD lo []) (items.getD j []) ≤
           thr) &&
       ((List.range' ((hi + lo) / 2) (hi - (hi + lo) / 2)).all fun j =>
         thr ≤ euclidean_distance_squared (items.getD lo [])
           (items.getD j [])))

/-- The subrange `[lo, hi)` of an item array, as a list. -/
def seg (l : List Pt) (lo hi : ℕ) : List Pt := (l.drop lo).take (hi - lo)

/-- The search-state invariant tying the heap and `tau` together: the heap
is kept sorted by non-increasing distance, it never exceeds `k` entries,
`tau` stays at its initial sentinel until the heap fills and then equals
the top distance, and every entry records a real item together with its
true squared distance to the target. -/
def HeapInv (items : List Pt) (target : Pt) (k : ℕ)
    (st : List (ℕ × ℚ) × ℚ) : Prop :=
  st.1.Sorted (fun a b => b.2 ≤ a.2) ∧
  st.1.length ≤ k ∧
  (st.1.length < k → st.2 = DBL_MAX) ∧
  (st.1.length = k → st.2 = heapTopD st.1) ∧
  ∀ e ∈ st.1, e.1 < items.length ∧
    e.2 = euclidean_distance_squared (items.getD e.1 []) target

/-- The heap holds an entry at recorded distance 0 whose item coincides
with the target. -/
def HasTarget (items : List Pt) (target : Pt) (h : List (ℕ × ℚ)) : Prop :=
  ∃ e ∈ h, e.2 = 0 ∧ items.getD e.1 [] = target

/-- The post-visit child traversal of the recursive search (vptree.h lines
215-234), threading the by-reference `tau` from the first child search into
the second child's pruning condition. -/
def searchChildren (items : List Pt) (target : Pt) (k : ℕ) (dist thr : ℚ)
    (l r : VNode) (st1 : List (ℕ × ℚ) × ℚ) : List (ℕ × ℚ) × ℚ :=
  if dist < thr then
    let st2 := if dist - st1.2 ≤ thr then searchNode items target k l st1
      else st1
    if dist + st2.2 ≥ thr then searchNode items target k r st2 else st2
  else
    let st2 := if dist + st1.2 ≥ thr then searchNode items target k r st1
      else st1
    if dist - st2.2 ≤ thr then searchNode items target k l st2 else st2

end VpTree

theorem euclidean_distance_squared_nonneg (a b : Pt) :
    0 ≤ euclidean_distance_squared a b := by
  unfold euclidean_distance_squared
  induction a generalizing b with
  | nil => simp
  | cons x xs ih =>
    cases b with
    | nil => simp
    | cons y ys =>
      simp only [List.zip_cons_cons, List.map_cons, List.sum_cons]
      have h1 : 0 ≤ (x - y) * (x - y) := mul_self_nonneg _
      have h2 := ih ys
      linarith

theorem euclidean_distance_squared_self (a : Pt) :
    euclidean_distance_squared a a = 0 := by
  unfold euclidean_distance_squared
  induction a with
  | nil => simp
  | cons x xs ih => simpa using ih

theorem euclidean_distance_squared_eq_zero (a b : Pt)
    (hlen : a.length = b.length)
    (h : euclidean_distance_squared a b = 0) : a = b := by
  induction a generalizing b with
  | nil => cases b with
    | nil => rfl
    | cons y ys => simp at hlen
  | cons x xs ih =>
    cases b with
    | nil => simp at hlen
    | cons y ys =>
      unfold euclidean_distance_squared at h
      simp only [List.zip_cons_cons, List.map_cons, List.sum_cons] at h
      have h1 : 0 ≤ (x - y) * (x - y) := mul_self_nonneg _
      have h2 : 0 ≤ euclidean_distance_squared xs ys :=
        euclidean_distance_squared_nonneg xs ys
      unfold euclidean_distance_squared at h2
      have hx : (x - y) * (x - y) = 0 := by linarith
      have hxy : x = y := by
        have := mul_self_eq_zero.mp hx
        linarith [sub_eq_zero.mp this]
      have hrest : euclidean_distance_squared xs ys = 0 := by
        unfold euclidean_distance_squared
        linarith
      have := ih ys (by simpa using hlen) hrest
      rw [hxy, this]

namespace TSNE

theorem valP_used_closed (v0 ee : ℚ) (hee : ee ≠ 0) (stop t : ℕ) :
    valP_used v0 ee stop t = if t ≤ stop then v0 * ee else v0 := by
  induction t with
  | zero => simp [valP_used]
  | succ t ih =>
    unfold valP_used at ih ⊢
    rw [List.range_succ, List.foldl_append]
    simp only [List.foldl_cons, List.foldl_nil]
    rw [ih]
    unfold lieStep
    rcases Nat.lt_trichotomy t stop with h | h | h
    · rw [if_pos (Nat.le_of_lt h), if_neg (Nat.ne_of_lt h),
        if_pos (Nat.succ_le_of_lt h)]
    · subst h
      rw [if_pos (le_refl t), if_pos rfl, if_neg (by omega)]
      field_simp
    · rw [if_neg (by omega), if_neg (by omega), if_neg (by omega)]

/-- Helper: reading back an element of an index-mapped range list. -/
theorem getD_map_range {α : Type} (f : ℕ → α) (d : α) (n i : ℕ) (h : i < n) :
    ((List.range n).map f).getD i d = f i := by
  rw [List.getD_eq_getElem _ _ (by simpa using h)]
  simp

/-- A body pass always increments the iteration counter by one. -/
theorem calibBody_iter (e lg : ℚ → ℚ) (p : ℚ) (d : List ℚ) (s : CalibState) :
    (calibBody e lg p d s).iter = s.iter + 1 := rfl

/-- The loop counter grows by at most the fuel. -/
theorem calibLoop_iter_le (e lg : ℚ → ℚ) (p : ℚ) (d : List ℚ) :
    ∀ (fuel : ℕ) (s : CalibState),
      (calibLoop e lg p d fuel s).iter ≤ s.iter + fuel := by
  intro fuel
  induction fuel with
  | zero => intro s; simp [calibLoop]
  | succ n ih =>
    intro s
    have h := ih (calibStep e lg p d s)
    unfold calibLoop
    refine le_trans h ?_
    unfold calibStep
    by_cases hf : s.found
    · rw [if_pos hf]
      omega
    · rw [if_neg hf, calibBody_iter]
      omega

/-- Once set, the convergence flag survives every further step. -/
theorem calibLoop_found_mono (e lg : ℚ → ℚ) (p : ℚ) (d : List ℚ) :
    ∀ (fuel : ℕ) (s : CalibState), s.found = true →
      (calibLoop e lg p d fuel s).found = true := by
  intro fuel
  induction fuel with
  | zero => intro s hs; simpa [calibLoop] using hs
  | succ n ih =>
    intro s hs
    unfold calibLoop calibStep
    rw [if_pos hs]
    exact ih s hs

/-- If the loop ends unconverged, every unit of fuel was spent on a real
pass: the final counter is the starting counter plus the fuel. -/
theorem calibLoop_unconverged_iter (e lg : ℚ → ℚ) (p : ℚ) (d : List ℚ) :
    ∀ (fuel : ℕ) (s : CalibState),
      (calibLoop e lg p d fuel s).found = false →
      (calibLoop e lg p d fuel s).iter = s.iter + fuel := by
  intro fuel
  induction fuel with
  | zero => intro s _; simp [calibLoop]
  | succ n ih =>
    intro s hs
    have hsf : s.found = false := by
      by_contra hc
      have : s.found = true := by
        cases h : s.found
        · exact absurd h hc
        · rfl
      rw [calibLoop_found_mono e lg p d _ s this] at hs
      exact Bool.true_eq_false.mp hs
    unfold calibLoop calibStep at hs ⊢
    rw [if_neg (by simp [hsf])] at hs ⊢
    have h2 := ih (calibBody e lg p d s) hs
    rw [h2, calibBody_iter]
    omega

end TSNE

/-- The device kernel's update is the CPU bisection rule verbatim: fed the
same entropy numerator, row sum, bandwidth, bounds and tolerance, it makes
the identical decision. -/
theorem perplexitySearchKernel_is_cpu_bisection (lg : ℚ → ℚ)
    (beta lower upper neg_ent sum_P target epsilon : ℚ) :
    PerplexitySearchKernel_update lg beta lower upper neg_ent sum_P target
      epsilon =
    TSNE.bisectUpdate epsilon (neg_ent / sum_P + lg sum_P - lg target)
      beta lower upper := rfl

/-- Claim C2: the batched GPU calibration as shipped computes nothing — the
early `return` at part_001 line 88 leaves the weights exactly as passed in,
so it cannot match the CPU calibration of `computeGaussianPerplexity` on
any input where calibration changes the row. -/
theorem claim_C2_theorem (pij squared_dist : List ℚ)
    (perplexity_target epsilon : ℚ) (num_points num_near_neighbors : ℕ) :
    SearchPerplexity pij squared_dist perplexity_target epsilon num_points
      num_near_neighbors = pij := rfl

theorem FLT_MIN_pos : 0 < FLT_MIN := by norm_num [FLT_MIN]

/-- A body pass re-establishes the invariant from any state, because the
row sum is seeded with `FLT_MIN` and the kernel values come from a
nonnegative kernel. -/
theorem calibBody_inv (e lg : ℚ → ℚ) (he : ∀ x, 0 ≤ e x) (p : ℚ)
    (d : List ℚ) (s : TSNE.CalibState) :
    CalibInv (TSNE.calibBody e lg p d s) := by
  unfold TSNE.calibBody CalibInv
  constructor
  · have hsum : 0 ≤ (d.map (fun t => e (-s.beta * t))).sum := by
      apply List.sum_nonneg
      intro q hq
      obtain ⟨t, _, rfl⟩ := List.mem_map.mp hq
      exact he _
    have := FLT_MIN_pos
    dsimp only
    linarith
  · intro q hq
    dsimp only at hq
    obtain ⟨t, _, rfl⟩ := List.mem_map.mp hq
    exact he _

theorem calibStep_inv (e lg : ℚ → ℚ) (he : ∀ x, 0 ≤ e x) (p : ℚ)
    (d : List ℚ) (s : TSNE.CalibState) (hs : CalibInv s) :
    CalibInv (TSNE.calibStep e lg p d s) := by
  unfold TSNE.calibStep
  by_cases hf : s.found
  · rwa [if_pos hf]
  · rw [if_neg hf]
    exact calibBody_inv e lg he p d s

theorem calibLoop_inv (e lg : ℚ → ℚ) (he : ∀ x, 0 ≤ e x) (p : ℚ)
    (d : List ℚ) :
    ∀ (fuel : ℕ) (s : TSNE.CalibState), CalibInv s →
      CalibInv (TSNE.calibLoop e lg p d fuel s) := by
  intro fuel
  induction fuel with
  | zero => intro s hs; simpa [TSNE.calibLoop] using hs
  | succ n ih =>
    intro s hs
    unfold TSNE.calibLoop
    exact ih _ (calibStep_inv e lg he p d s hs)

/-- With at least one unit of fuel and an unconverged starting state, the
loop's final state satisfies the invariant (the first pass always executes
and establishes it). -/
theorem calibLoop_inv_of_unfound (e lg : ℚ → ℚ) (he : ∀ x, 0 ≤ e x) (p : ℚ)
    (d : List ℚ) (fuel : ℕ) (s : TSNE.CalibState) (hs : s.found = false) :
    CalibInv (TSNE.calibLoop e lg p d (fuel + 1) s) := by
  unfold TSNE.calibLoop TSNE.calibStep
  rw [if_neg (by simp [hs])]
  exact calibLoop_inv e lg he p d fuel _ (calibBody_inv e lg he p d s)

set_option maxRecDepth 10000 in
/-- Claim C8 (amended): the per-point calibration loop runs at most 200
passes; an unconverged loop runs exactly 200; and the row written out is
the last kernel row divided by the last `sum_P`, with no error path — the
code raises no warning on non-convergence (the only diagnostic in
`computeGaussianPerplexity` besides the progress counter is the entry check
`perplexity > K` of tsne.cpp line 335). -/
theorem claim_C8_theorem (e lg : ℚ → ℚ) (perplexity : ℚ)
    (neighbors : List ℕ) (distances : List ℚ) :
    (TSNE.computeGaussianPerplexityPoint e lg perplexity neighbors
        distances).state.iter ≤ 200 ∧
    ((TSNE.computeGaussianPerplexityPoint e lg perplexity neighbors
        distances).state.found = false →
      (TSNE.computeGaussianPerplexityPoint e lg perplexity neighbors
        distances).state.iter = 200) ∧
    (TSNE.computeGaussianPerplexityPoint e lg perplexity neighbors
        distances).vals =
      (TSNE.calibLoop e lg perplexity (distances.drop 1) 200
        TSNE.calibInit).curP.map
        (fun p => p / (TSNE.calibLoop e lg perplexity (distances.drop 1) 200
          TSNE.calibInit).sumP) := by
  refine ⟨?_, ?_, ?_⟩
  · exact TSNE.calibLoop_iter_le e lg perplexity (distances.drop 1) 200
      TSNE.calibInit
  · intro hf
    exact TSNE.calibLoop_unconverged_iter e lg perplexity
      (distances.drop 1) 200 TSNE.calibInit hf
  · rfl

/-- Evaluation lemma for the C8 counterexample input: with the constant
kernel 1, constant log 0, target perplexity 1 and the single squared
distance 1, a body pass always fails the tolerance test (the entropy gap is
`beta / (FLT_MIN + 1) ≥ 1/2 > 1e-5`), keeps `max_beta` at its sentinel and
doubles `beta`. -/
theorem calibBody_concrete (s : TSNE.CalibState) (hb : 1 ≤ s.beta)
    (hmx : s.max_beta = FLT_MAX) :
    TSNE.calibBody (fun _ => 1) (fun _ => 0) 1 [1] s =
      { beta := s.beta * 2, min_beta := s.beta, max_beta := FLT_MAX,
        found := false, iter := s.iter + 1,
        curP := [1], sumP := FLT_MIN + 1 } := by
  have hpos : (0 : ℚ) < FLT_MIN + 1 := by
    have := FLT_MIN_pos; linarith
  have htolpos : (0 : ℚ) < TSNE.tol := by norm_num [TSNE.tol]
  have hkey : TSNE.tol < s.beta / (FLT_MIN + 1) := by
    rw [lt_div_iff hpos]
    have h4 : TSNE.tol * (FLT_MIN + 1) < 1 := by
      norm_num [TSNE.tol, FLT_MIN]
    linarith
  have hu : TSNE.bisectUpdate TSNE.tol (s.beta / (FLT_MIN + 1)) s.beta
      s.min_beta s.max_beta = (false, s.beta * 2, s.beta, s.max_beta) := by
    unfold TSNE.bisectUpdate
    rw [if_neg (by intro hcc; linarith [hcc.1]),
      if_pos (by linarith), if_pos (Or.inl hmx)]
  simp only [TSNE.calibBody, List.map_cons, List.map_nil,
    List.zip_cons_cons, List.zip_nil_right, List.sum_cons, List.sum_nil,
    mul_one, add_zero, sub_zero]
  rw [hu]
  simp [hmx]

/-- The concrete loop never converges: from any unconverged state with
`beta ≥ 1` and the `max_beta` sentinel, all fuel is consumed. -/
theorem calibLoop_concrete (fuel : ℕ) :
    ∀ s : TSNE.CalibState, s.found = false → 1 ≤ s.beta →
      s.max_beta = FLT_MAX →
      (TSNE.calibLoop (fun _ => 1) (fun _ => 0) 1 [1] fuel s).found = false ∧
      (TSNE.calibLoop (fun _ => 1) (fun _ => 0) 1 [1] fuel s).iter =
        s.iter + fuel := by
  induction fuel with
  | zero => intro s hf _ _; exact ⟨hf, by simp [TSNE.calibLoop]⟩
  | succ n ih =>
    intro s hf hb hmx
    unfold TSNE.calibLoop TSNE.calibStep
    rw [if_neg (by simp [hf]), calibBody_concrete s hb hmx]
    have h := ih ⟨s.beta * 2, s.beta, FLT_MAX, false, s.iter + 1, [1],
      FLT_MIN + 1⟩ rfl (by show (1 : ℚ) ≤ s.beta * 2; linarith) rfl
    refine ⟨h.1, ?_⟩
    rw [h.2]
    show s.iter + 1 + n = s.iter + (n + 1)
    omega

/-- Claim C8 counterexample: a concrete point (constant kernel, one
neighbor at squared distance 1, target perplexity 1) fails to converge, the
loop spends all 200 passes, and no warning of any kind is available — the
only diagnostic predicate of the function, the `perplexity > K` entry
check, is false here, so nothing is logged despite non-convergence. -/
theorem claim_C8_counterexample :
    (TSNE.computeGaussianPerplexityPoint (fun _ => 1) (fun _ => 0) 1 [0, 1]
      [0, 1]).state.found = false ∧
    (TSNE.computeGaussianPerplexityPoint (fun _ => 1) (fun _ => 0) 1 [0, 1]
      [0, 1]).state.iter = 200 ∧
    TSNE.perplexityWarning 1 1 = false := by
  have h := calibLoop_concrete 200 TSNE.calibInit rfl (le_refl 1) rfl
  unfold TSNE.computeGaussianPerplexityPoint
  refine ⟨by simpa using h.1, by simpa [TSNE.calibInit] using h.2, ?_⟩
  simp [TSNE.perplexityWarning]

/-- Claim C10: the row-normalization divisor `sum_P` is seeded with
`FLT_MIN` before the nonnegative kernel weights are accumulated (tsne.cpp
lines 406-409), so for every input — including rows where every kernel
value is 0 — the divisor is strictly positive, the final normalization at
lines 443-445 never divides by zero, and the emitted weights are
nonnegative. -/
theorem claim_C10_theorem (e lg : ℚ → ℚ) (perplexity : ℚ)
    (neighbors : List ℕ) (distances : List ℚ) (he : ∀ x, 0 ≤ e x) :
    0 < (TSNE.computeGaussianPerplexityPoint e lg perplexity neighbors
        distances).state.sumP ∧
    (TSNE.computeGaussianPerplexityPoint e lg perplexity neighbors
        distances).state.sumP ≠ 0 ∧
    ∀ v ∈ (TSNE.computeGaussianPerplexityPoint e lg perplexity neighbors
        distances).vals, 0 ≤ v := by
  have hinv : CalibInv (TSNE.calibLoop e lg perplexity (distances.drop 1)
      200 TSNE.calibInit) :=
    calibLoop_inv_of_unfound e lg he perplexity (distances.drop 1) 199
      TSNE.calibInit rfl
  unfold TSNE.computeGaussianPerplexityPoint
  refine ⟨hinv.1, ne_of_gt hinv.1, ?_⟩
  intro v hv
  simp only at hv
  obtain ⟨p, hp, rfl⟩ := List.mem_map.mp hv
  exact div_nonneg (hinv.2 p hp) (le_of_lt hinv.1)

/-- Witness for C10 at a concrete nonnegative kernel. -/
theorem claim_C10_witness :
    (∀ x : ℚ, 0 ≤ (fun _ : ℚ => (1 : ℚ)) x) ∧
    (0 < (TSNE.computeGaussianPerplexityPoint (fun _ => 1) (fun _ => 0) 1
        [0, 1] [0, 1]).state.sumP ∧
    (TSNE.computeGaussianPerplexityPoint (fun _ => 1) (fun _ => 0) 1
        [0, 1] [0, 1]).state.sumP ≠ 0 ∧
    ∀ v ∈ (TSNE.computeGaussianPerplexityPoint (fun _ => 1) (fun _ => 0) 1
        [0, 1] [0, 1]).vals, 0 ≤ v) :=
  ⟨fun _ => by norm_num,
    claim_C10_theorem (fun _ => 1) (fun _ => 0) 1 [0, 1] [0, 1]
      (fun _ => by norm_num)⟩

/-- Claim C6 (amended): per coordinate, the gain becomes `gain + 0.2` when the
gradient's sign differs from the previous velocity's sign and otherwise
`gain * 0.8 + 0.01` (an affine decay, not a multiplicative decay clipped at a
floor); then velocity becomes `momentum * velocity - eta * gain * gradient`
using the fresh gain, and the position is incremented by the velocity
(tsne.cpp lines 167-174). -/
theorem claim_C6_theorem (momentum eta : ℚ) (gains uY Y dY : List ℚ) (i : ℕ)
    (hi : i < gains.length) :
    (TSNE.gradUpdate momentum eta gains uY Y dY).1.getD i 0 =
      (if TSNE.sign (dY.getD i 0) ≠ TSNE.sign (uY.getD i 0) then
        gains.getD i 0 + 1/5 else gains.getD i 0 * (4/5) + 1/100) ∧
    (TSNE.gradUpdate momentum eta gains uY Y dY).2.1.getD i 0 =
      momentum * uY.getD i 0 -
        eta * ((TSNE.gradUpdate momentum eta gains uY Y dY).1.getD i 0) *
          dY.getD i 0 ∧
    (TSNE.gradUpdate momentum eta gains uY Y dY).2.2.getD i 0 =
      Y.getD i 0 + (TSNE.gradUpdate momentum eta gains uY Y dY).2.1.getD i 0 := by
  unfold TSNE.gradUpdate
  rw [TSNE.getD_map_range _ _ _ _ hi, TSNE.getD_map_range _ _ _ _ hi,
    TSNE.getD_map_range _ _ _ _ hi]
  unfold TSNE.gradStepCoord
  refine ⟨rfl, rfl, rfl⟩

/-- Witness for C6 at a concrete coordinate. -/
theorem claim_C6_witness :
    (0 : ℕ) < ([1] : List ℚ).length ∧
    (TSNE.gradUpdate 1 1 [1] [1] [0] [1]).1.getD 0 0 =
      (if TSNE.sign (([1] : List ℚ).getD 0 0) ≠ TSNE.sign (([1] : List ℚ).getD 0 0) then
        ([1] : List ℚ).getD 0 0 + 1/5 else ([1] : List ℚ).getD 0 0 * (4/5) + 1/100) ∧
    (TSNE.gradUpdate 1 1 [1] [1] [0] [1]).2.1.getD 0 0 =
      1 * ([1] : List ℚ).getD 0 0 -
        1 * ((TSNE.gradUpdate 1 1 [1] [1] [0] [1]).1.getD 0 0) * ([1] : List ℚ).getD 0 0 ∧
    (TSNE.gradUpdate 1 1 [1] [1] [0] [1]).2.2.getD 0 0 =
      ([0] : List ℚ).getD 0 0 + (TSNE.gradUpdate 1 1 [1] [1] [0] [1]).2.1.getD 0 0 :=
  ⟨by simp, claim_C6_theorem 1 1 [1] [1] [0] [1] 0 (by simp)⟩

/-- Claim C6 counterexample: with gradient 1 and previous velocity 1 (equal
signs) and gain 1, the code yields gain 0.81 at tsne.cpp line 169, while the
claim's "multiplied by 0.8 with a floor of 0.01" yields 0.8. -/
theorem claim_C6_counterexample :
    (TSNE.gradUpdate 1 1 [1] [1] [0] [1]).1.getD 0 0 = 81/100 ∧
    TSNE.gainFloorClaim 1 1 1 = 4/5 ∧ (81/100 : ℚ) ≠ 4/5 := by
  refine ⟨?_, ?_, by norm_num⟩
  · unfold TSNE.gradUpdate TSNE.gradStepCoord TSNE.sign
    norm_num
  · unfold TSNE.gainFloorClaim TSNE.sign
    norm_num

/-- Claim C7 (amended): the affinity values are multiplied by the
early-exaggeration factor before the loop and divided back by it exactly
once, at the end of iteration `stop_lying_iter`; therefore the value read by
iteration `t` is the exaggerated one for `t ≤ stop_lying_iter` and the plain
one afterwards.  With `init_from_Y`, `stop_lying_iter` is 0, so iteration 0
still reads exaggerated values and only iterations ≥ 1 read plain ones
(tsne.cpp lines 139-147 and 180-184). -/
theorem claim_C7_theorem (v0 ee : ℚ) (hee : ee ≠ 0) (b : Bool)
    (nee t : ℕ) :
    TSNE.valP_used v0 ee (TSNE.stopLyingIter b nee) t =
      (if t ≤ TSNE.stopLyingIter b nee then v0 * ee else v0) ∧
    (b = true → 1 ≤ t → TSNE.valP_used v0 ee (TSNE.stopLyingIter b nee) t = v0) := by
  refine ⟨TSNE.valP_used_closed v0 ee hee _ t, fun hb ht => ?_⟩
  subst hb
  rw [TSNE.valP_used_closed v0 ee hee _ t]
  simp only [TSNE.stopLyingIter, if_true]
  rw [if_neg (by omega)]

/-- Witness for C7 at concrete values. -/
theorem claim_C7_witness :
    ((4 : ℚ) ≠ 0) ∧
    (TSNE.valP_used 1 4 (TSNE.stopLyingIter false 3) 2 =
      (if 2 ≤ TSNE.stopLyingIter false 3 then (1 : ℚ) * 4 else 1) ∧
    (false = true → 1 ≤ 2 →
      TSNE.valP_used 1 4 (TSNE.stopLyingIter false 3) 2 = 1)) :=
  ⟨by norm_num, claim_C7_theorem 1 4 (by norm_num) false 3 2⟩

/-- Claim C7 counterexample: with a pre-supplied starting embedding
(`init_from_Y`), iteration 0 still reads the exaggerated value 4, not the
plain value 1; the division happens at the end of iteration 0, not before it
(tsne.cpp lines 145-147 versus 161-184). -/
theorem claim_C7_counterexample :
    TSNE.valP_used 1 4 (TSNE.stopLyingIter true 250) 0 = 4 ∧ (4 : ℚ) ≠ 1 := by
  constructor
  · unfold TSNE.valP_used TSNE.stopLyingIter
    norm_num
  · norm_num

/-- Claim C9: the gradient rows produced by `computeGradient` are identical
with and without error evaluation, and consequently so is every embedding
update computed from them; the diagnostic error only changes the returned
error scalar (tsne.cpp lines 241-291). -/
theorem claim_C9_theorem (P : List (List (ℕ × ℚ))) (Y : List (List ℚ))
    (no_dims : ℕ) (nonEdgeForces : ℕ → List ℚ × ℚ) (lg : ℚ → ℚ)
    (momentum eta : ℚ) (gains uY Yflat : List ℚ) :
    (TSNE.computeGradient P Y no_dims nonEdgeForces lg true).1 =
      (TSNE.computeGradient P Y no_dims nonEdgeForces lg false).1 ∧
    TSNE.gradUpdate momentum eta gains uY Yflat
        ((TSNE.computeGradient P Y no_dims nonEdgeForces lg true).1.flatten) =
      TSNE.gradUpdate momentum eta gains uY Yflat
        ((TSNE.computeGradient P Y no_dims nonEdgeForces lg false).1.flatten) :=
  ⟨rfl, rfl⟩

namespace TSNE

theorem foldl_preserve_mem {α β : Type} (f : β → α → β) (Pr : β → Prop) :
    ∀ (l : List α), (∀ o x, x ∈ l → Pr o → Pr (f o x)) →
      ∀ o, Pr o → Pr (l.foldl f o) := by
  intro l
  induction l with
  | nil => intro _ o ho; simpa using ho
  | cons a t ih =>
    intro h o ho
    simp only [List.foldl_cons]
    exact ih (fun o' x hx => h o' x (List.mem_cons_of_mem a hx))
      (f o a) (h o a (List.mem_cons_self a t) ho)

theorem Sup.refl' (out : ℕ → List (ℕ × ℚ)) : Sup out out := fun _ _ h => h

theorem Sup.trans' {o1 o2 o3 : ℕ → List (ℕ × ℚ)}
    (h1 : Sup o1 o2) (h2 : Sup o2 o3) : Sup o1 o3 :=
  fun r x hx => h2 r x (h1 r x hx)

theorem pairAppend_sup (a b : ℕ) (x : ℚ) (out : ℕ → List (ℕ × ℚ)) :
    Sup out (pairAppend a b x out) := by
  intro r y hy
  unfold pairAppend
  by_cases h1 : r = a
  · rw [if_pos h1]; exact List.mem_append_left _ hy
  · rw [if_neg h1]
    by_cases h2 : r = b
    · rw [if_pos h2]; exact List.mem_append_left _ hy
    · rwa [if_neg h2]

theorem symWrite_sup (P : List (List (ℕ × ℚ))) (n : ℕ) (e : ℕ × ℚ)
    (out : ℕ → List (ℕ × ℚ)) : Sup out (symWrite P n e out) := by
  unfold symWrite
  by_cases h1 : present P e.1 n
  · rw [if_pos h1]
    by_cases h2 : n ≤ e.1
    · rw [if_pos h2]; exact pairAppend_sup _ _ _ _
    · rw [if_neg h2]; exact Sup.refl' out
  · rw [if_neg h1]; exact pairAppend_sup _ _ _ _

theorem processRow_sup (P : List (List (ℕ × ℚ))) (n : ℕ)
    (out : ℕ → List (ℕ × ℚ)) : Sup out (processRow P n out) := by
  unfold processRow
  generalize P.getD n [] = row
  induction row generalizing out with
  | nil => exact Sup.refl' out
  | cons a t ih =>
    simp only [List.foldl_cons]
    exact Sup.trans' (symWrite_sup P n a out) (ih _)

theorem foldl_rows_sup (P : List (List (ℕ × ℚ))) :
    ∀ (l : List ℕ) (out : ℕ → List (ℕ × ℚ)),
      Sup out (l.foldl (fun o n => processRow P n o) out) := by
  intro l
  induction l with
  | nil => intro out; exact Sup.refl' out
  | cons a t ih =>
    intro out
    simp only [List.foldl_cons]
    exact Sup.trans' (processRow_sup P a out) (ih _)

theorem pairAppend_mem_left (a b : ℕ) (x : ℚ) (out : ℕ → List (ℕ × ℚ)) :
    (b, x) ∈ pairAppend a b x out a := by
  unfold pairAppend
  rw [if_pos rfl]
  exact List.mem_append_right _ (List.mem_singleton.mpr rfl)

theorem pairAppend_mem_right (a b : ℕ) (x : ℚ) (out : ℕ → List (ℕ × ℚ)) :
    (a, x) ∈ pairAppend a b x out b := by
  unfold pairAppend
  by_cases h : b = a
  · rw [if_pos h, h]
    exact List.mem_append_right _ (List.mem_singleton.mpr rfl)
  · rw [if_neg h, if_pos rfl]
    exact List.mem_append_right _ (List.mem_singleton.mpr rfl)

theorem pairAppend_mirror (a b : ℕ) (x : ℚ) (out : ℕ → List (ℕ × ℚ))
    (h : MirrorFn out) : MirrorFn (pairAppend a b x out) := by
  intro r c v hm
  unfold pairAppend at hm
  by_cases hr : r = a
  · rw [if_pos hr] at hm
    rcases List.mem_append.mp hm with hold | hnew
    · exact pairAppend_sup a b x out c _ (h r c v hold)
    · have : c = b ∧ v = x := by
        have := List.mem_singleton.mp hnew
        exact ⟨congrArg Prod.fst this, congrArg Prod.snd this⟩
      rw [this.1, this.2, hr]
      exact pairAppend_mem_right a b x out
  · rw [if_neg hr] at hm
    by_cases hrb : r = b
    · rw [if_pos hrb] at hm
      rcases List.mem_append.mp hm with hold | hnew
      · exact pairAppend_sup a b x out c _ (h r c v hold)
      · have : c = a ∧ v = x := by
          have := List.mem_singleton.mp hnew
          exact ⟨congrArg Prod.fst this, congrArg Prod.snd this⟩
        rw [this.1, this.2, hrb]
        exact pairAppend_mem_left a b x out
    · rw [if_neg hrb] at hm
      exact pairAppend_sup a b x out c _ (h r c v hm)

theorem symWrite_mirror (P : List (List (ℕ × ℚ))) (n : ℕ) (e : ℕ × ℚ)
    (out : ℕ → List (ℕ × ℚ)) (h : MirrorFn out) :
    MirrorFn (symWrite P n e out) := by
  unfold symWrite
  by_cases h1 : present P e.1 n
  · rw [if_pos h1]
    by_cases h2 : n ≤ e.1
    · rw [if_pos h2]; exact pairAppend_mirror _ _ _ _ h
    · rwa [if_neg h2]
  · rw [if_neg h1]; exact pairAppend_mirror _ _ _ _ h

theorem processRow_mirror (P : List (List (ℕ × ℚ))) (n : ℕ)
    (out : ℕ → List (ℕ × ℚ)) (h : MirrorFn out) :
    MirrorFn (processRow P n out) := by
  unfold processRow
  generalize P.getD n [] = row
  induction row generalizing out with
  | nil => simpa using h
  | cons a t ih =>
    simp only [List.foldl_cons]
    exact ih _ (symWrite_mirror P n a out h)

theorem symOut_mirror (P : List (List (ℕ × ℚ))) : MirrorFn (symOut P) := by
  unfold symOut
  generalize List.range P.length = l
  have base : MirrorFn (fun _ => ([] : List (ℕ × ℚ))) := by
    intro r c v h; simp at h
  exact foldl_preserve_mem (fun o n => processRow P n o) MirrorFn l
    (fun o x _ ho => processRow_mirror P x o ho) _ base

theorem pairAppend_colsLt (N a b : ℕ) (x : ℚ) (out : ℕ → List (ℕ × ℚ))
    (ha : a < N) (hb : b < N) (h : ColsLt N out) :
    ColsLt N (pairAppend a b x out) := by
  intro r y hy
  unfold pairAppend at hy
  by_cases h1 : r = a
  · rw [if_pos h1] at hy
    rcases List.mem_append.mp hy with hold | hnew
    · exact h r y hold
    · rw [List.mem_singleton.mp hnew]; exact hb
  · rw [if_neg h1] at hy
    by_cases h2 : r = b
    · rw [if_pos h2] at hy
      rcases List.mem_append.mp hy with hold | hnew
      · exact h r y hold
      · rw [List.mem_singleton.mp hnew]; exact ha
    · rw [if_neg h2] at hy
      exact h r y hy

theorem symWrite_colsLt (N : ℕ) (P : List (List (ℕ × ℚ))) (n : ℕ)
    (e : ℕ × ℚ) (out : ℕ → List (ℕ × ℚ)) (hn : n < N) (he : e.1 < N)
    (h : ColsLt N out) : ColsLt N (symWrite P n e out) := by
  unfold symWrite
  by_cases h1 : present P e.1 n
  · rw [if_pos h1]
    by_cases h2 : n ≤ e.1
    · rw [if_pos h2]; exact pairAppend_colsLt N n e.1 _ out hn he h
    · rwa [if_neg h2]
  · rw [if_neg h1]; exact pairAppend_colsLt N n e.1 _ out hn he h

theorem processRow_colsLt (N : ℕ) (P : List (List (ℕ × ℚ))) (n : ℕ)
    (out : ℕ → List (ℕ × ℚ)) (hn : n < N)
    (hrow : ∀ x ∈ P.getD n [], x.1 < N) (h : ColsLt N out) :
    ColsLt N (processRow P n out) := by
  unfold processRow
  exact foldl_preserve_mem _ (ColsLt N) _
    (fun o x hx ho => symWrite_colsLt N P n x o hn (hrow x hx) ho) out h

theorem symOut_colsLt (P : List (List (ℕ × ℚ))) (hB : ColsBounded P) :
    ColsLt P.length (symOut P) := by
  unfold symOut
  refine foldl_preserve_mem _ (ColsLt P.length) _ ?_ _ ?_
  · intro o x hx ho
    exact processRow_colsLt P.length P x o (List.mem_range.mp hx)
      (hB x (List.mem_range.mp hx)) ho
  · intro r y hy; simp at hy

theorem foldl_edges_sup (P : List (List (ℕ × ℚ))) (n : ℕ) :
    ∀ (l : List (ℕ × ℚ)) (out : ℕ → List (ℕ × ℚ)),
      Sup out (l.foldl (fun o e => symWrite P n e o) out) := by
  intro l
  induction l with
  | nil => intro out; exact Sup.refl' out
  | cons a t ih =>
    intro out
    simp only [List.foldl_cons]
    exact Sup.trans' (symWrite_sup P n a out) (ih _)

/-- The cells the fill pass writes for a one-directional edge `(n, c, v)`
(no reciprocal: both rows get `v`) and for the representative of a
reciprocal pair (`n ≤ c`: both rows get `v + w`). -/
theorem processRow_writes (P : List (List (ℕ × ℚ))) (n : ℕ) (e : ℕ × ℚ)
    (out : ℕ → List (ℕ × ℚ)) (he : e ∈ P.getD n []) :
    (present P e.1 n = false →
      (e.1, e.2) ∈ processRow P n out n ∧
      (n, e.2) ∈ processRow P n out e.1) ∧
    (present P e.1 n = true → n ≤ e.1 →
      (e.1, e.2 + findVal (P.getD e.1 []) n) ∈ processRow P n out n ∧
      (n, e.2 + findVal (P.getD e.1 []) n) ∈ processRow P n out e.1) := by
  obtain ⟨s, t, hst⟩ := List.append_of_mem he
  unfold processRow
  rw [hst, List.foldl_append, List.foldl_cons]
  have hsup := foldl_edges_sup P n t
    (symWrite P n e (s.foldl (fun o e' => symWrite P n e' o) out))
  set out1 := s.foldl (fun o e' => symWrite P n e' o) out with hout1
  constructor
  · intro hp
    have hw : symWrite P n e out1 = pairAppend n e.1 e.2 out1 := by
      unfold symWrite
      rw [if_neg (by simp [hp])]
    constructor
    · apply hsup
      rw [hw]
      exact pairAppend_mem_left n e.1 e.2 out1
    · apply hsup
      rw [hw]
      exact pairAppend_mem_right n e.1 e.2 out1
  · intro hp hle
    have hw : symWrite P n e out1 =
        pairAppend n e.1 (e.2 + findVal (P.getD e.1 []) n) out1 := by
      unfold symWrite
      rw [if_pos (by simp [hp]), if_pos hle]
    constructor
    · apply hsup
      rw [hw]
      exact pairAppend_mem_left n e.1 _ out1
    · apply hsup
      rw [hw]
      exact pairAppend_mem_right n e.1 _ out1

/-- Lifting `processRow_writes` through the outer loop over all rows. -/
theorem symOut_writes (P : List (List (ℕ × ℚ))) (n : ℕ) (e : ℕ × ℚ)
    (hn : n < P.length) (he : e ∈ P.getD n []) :
    (present P e.1 n = false →
      (e.1, e.2) ∈ symOut P n ∧ (n, e.2) ∈ symOut P e.1) ∧
    (present P e.1 n = true → n ≤ e.1 →
      (e.1, e.2 + findVal (P.getD e.1 []) n) ∈ symOut P n ∧
      (n, e.2 + findVal (P.getD e.1 []) n) ∈ symOut P e.1) := by
  obtain ⟨s, t, hst⟩ := List.append_of_mem (List.mem_range.mpr hn)
  unfold symOut
  rw [hst, List.foldl_append, List.foldl_cons]
  have hsup := foldl_rows_sup P t
    (processRow P n (s.foldl (fun o m => processRow P m o) (fun _ => [])))
  set out1 := s.foldl (fun o m => processRow P m o) (fun _ => ([] : List (ℕ × ℚ)))
  have h := processRow_writes P n e out1 he
  exact ⟨fun hp => ⟨hsup _ _ ((h.1 hp).1), hsup _ _ ((h.1 hp).2)⟩,
    fun hp hle => ⟨hsup _ _ ((h.2 hp hle).1), hsup _ _ ((h.2 hp hle).2)⟩⟩

/-- A successful presence scan yields a genuine reciprocal entry whose
value is the scanned value. -/
theorem present_mem (P : List (List (ℕ × ℚ))) (c n : ℕ)
    (h : present P c n = true) :
    (n, findVal (P.getD c []) n) ∈ P.getD c [] := by
  unfold present at h
  obtain ⟨x, hx, hpx⟩ := List.any_eq_true.mp h
  unfold findVal
  cases hf : (P.getD c []).find? (fun f => f.1 == n) with
  | none =>
    have := List.find?_eq_none.mp hf x hx
    simp [hpx] at this
  | some y =>
    have hy := List.mem_of_find?_eq_some hf
    have hyp : y.1 = n := by
      have := List.find?_some hf
      simpa using this
    have heq : (n, y.2) = y := by
      rw [← hyp]
    have hval : (Option.map Prod.snd (some y)).getD 0 = y.2 := rfl
    rw [hval, heq]
    exact hy

/-- On a row with distinct columns, the scan value at our own entry's
column is our own value. -/
theorem findVal_of_mem_distinct (row : List (ℕ × ℚ)) (c : ℕ) (v : ℚ)
    (h : (c, v) ∈ row) (hd : row.Pairwise (fun a b => a.1 ≠ b.1)) :
    findVal row c = v := by
  induction row with
  | nil => simp at h
  | cons a t ih =>
    rcases List.mem_cons.mp h with hh | ht
    · unfold findVal
      rw [List.find?_cons_of_pos _ (by simp [← hh])]
      rw [← hh]
      rfl
    · have hne : a.1 ≠ c := by
        have := (List.pairwise_cons.mp hd).1 (c, v) ht
        simpa using this
      unfold findVal
      rw [List.find?_cons_of_neg _ (by simp [hne])]
      exact ih ht (List.pairwise_cons.mp hd).2

/-- Reading a row of a mapped list below its length. -/
theorem getD_map_lt {α β : Type} (l : List α) (f : α → β) (r : ℕ)
    (hr : r < l.length) (d : α) (d' : β) :
    (l.map f).getD r d' = f (l.getD r d) := by
  rw [List.getD_eq_getElem _ _ (by simpa using hr),
    List.getD_eq_getElem _ _ hr, List.getElem_map]

theorem symmetrizeMatrix_length (P : List (List (ℕ × ℚ))) :
    (symmetrizeMatrix P).length = P.length := by
  simp [symmetrizeMatrix]

theorem normalizeCSR_length (Q : List (List (ℕ × ℚ))) :
    (normalizeCSR Q).length = Q.length := by
  simp [normalizeCSR]

theorem symRow_eq (P : List (List (ℕ × ℚ))) (r : ℕ) (hr : r < P.length) :
    (symmetrizeMatrix P).getD r [] =
      (symOut P r).map (fun e => (e.1, e.2 / 2)) := by
  unfold symmetrizeMatrix
  exact getD_map_range _ _ _ _ hr

theorem normRow_eq (Q : List (List (ℕ × ℚ))) (r : ℕ) (hr : r < Q.length) :
    (normalizeCSR Q).getD r [] =
      (Q.getD r []).map (fun e => (e.1, e.2 / csrTotal Q)) := by
  unfold normalizeCSR
  exact getD_map_lt Q _ r hr [] []

theorem sum_map_div (l : List (ℕ × ℚ)) (S : ℚ) :
    (l.map (fun e => e.2 / S)).sum = (l.map Prod.snd).sum / S := by
  induction l with
  | nil => simp
  | cons a t ih => simp [ih, add_div]

theorem sum_list_div (l : List ℚ) (S : ℚ) :
    (l.map (fun x => x / S)).sum = l.sum / S := by
  induction l with
  | nil => simp
  | cons a t ih => simp [ih, add_div]

theorem csrTotal_map_div (Q : List (List (ℕ × ℚ))) (S : ℚ) :
    csrTotal (Q.map (fun row => row.map (fun e => (e.1, e.2 / S)))) =
      csrTotal Q / S := by
  have hrow : ∀ row : List (ℕ × ℚ),
      ((row.map (fun e => (e.1, e.2 / S))).map Prod.snd).sum =
        (row.map Prod.snd).sum / S := by
    intro row
    rw [List.map_map]
    exact sum_map_div row S
  induction Q with
  | nil => simp [csrTotal]
  | cons r t ih =>
    simp only [csrTotal, List.map_cons, List.sum_cons] at ih ⊢
    rw [hrow r, ih, add_div]

theorem csrTotal_normalize (Q : List (List (ℕ × ℚ)))
    (h : csrTotal Q ≠ 0) : csrTotal (normalizeCSR Q) = 1 := by
  have h1 : csrTotal (normalizeCSR Q) = csrTotal Q / csrTotal Q :=
    csrTotal_map_div Q (csrTotal Q)
  rw [h1]
  exact div_self h

end TSNE

/-- Claim C3: for the affinity graph as the optimizer consumes it
(`symmetrizeMatrix` followed by the caller's global normalization,
tsne.cpp lines 116-123), every stored edge `(i, j, v)` has a mirrored
stored edge `(j, i, v)` with the same value, and the sum of all stored
values is exactly 1 (hence within the claimed 1e-4).  The hypotheses state
that the directed input's columns are valid row indices and that the graph
is not identically zero — both hold for the k-NN rows the program builds. -/
theorem claim_C3_theorem (P : List (List (ℕ × ℚ))) (hB : TSNE.ColsBounded P)
    (hT : TSNE.csrTotal (TSNE.symmetrizeMatrix P) ≠ 0) :
    (∀ i, ∀ e ∈ (TSNE.normalizeCSR (TSNE.symmetrizeMatrix P)).getD i [],
      (i, e.2) ∈ (TSNE.normalizeCSR (TSNE.symmetrizeMatrix P)).getD e.1 []) ∧
    TSNE.csrTotal (TSNE.normalizeCSR (TSNE.symmetrizeMatrix P)) = 1 := by
  refine ⟨?_, TSNE.csrTotal_normalize _ hT⟩
  intro i e he
  by_cases hi : i < P.length
  · rw [TSNE.normRow_eq _ i (by rw [TSNE.symmetrizeMatrix_length]; exact hi),
      TSNE.symRow_eq P i hi, List.map_map] at he
    obtain ⟨a, ha, hae⟩ := List.mem_map.mp he
    have ha' : (a.1, a.2) ∈ TSNE.symOut P i := by
      rw [Prod.mk.eta]; exact ha
    have hmir := TSNE.symOut_mirror P i a.1 a.2 ha'
    have hc : a.1 < P.length := TSNE.symOut_colsLt P hB i a ha
    have he1 : e.1 = a.1 := by
      rw [← hae]
      rfl
    have he2 : e.2 = a.2 / 2 / TSNE.csrTotal (TSNE.symmetrizeMatrix P) := by
      rw [← hae]
      rfl
    rw [he1, he2, TSNE.normRow_eq _ a.1
        (by rw [TSNE.symmetrizeMatrix_length]; exact hc),
      TSNE.symRow_eq P a.1 hc, List.map_map]
    exact List.mem_map.mpr ⟨(i, a.2), hmir, rfl⟩
  · rw [List.getD_eq_default] at he
    · exact absurd he (List.not_mem_nil e)
    · rw [TSNE.normalizeCSR_length, TSNE.symmetrizeMatrix_length]; omega

/-- Witness for C3 on the concrete two-point reciprocal graph
0 → 1 with value 1 and 1 → 0 with value 3. -/
theorem claim_C3_witness :
    TSNE.ColsBounded [[(1, 5)], [(0, 3)]] ∧
    TSNE.csrTotal (TSNE.symmetrizeMatrix [[(1, 5)], [(0, 3)]]) ≠ 0 ∧
    ((∀ i, ∀ e ∈ (TSNE.normalizeCSR
        (TSNE.symmetrizeMatrix [[(1, 5)], [(0, 3)]])).getD i [],
      (i, e.2) ∈ (TSNE.normalizeCSR
        (TSNE.symmetrizeMatrix [[(1, 5)], [(0, 3)]])).getD e.1 []) ∧
    TSNE.csrTotal (TSNE.normalizeCSR
      (TSNE.symmetrizeMatrix [[(1, 5)], [(0, 3)]])) = 1) := by
  have hB : TSNE.ColsBounded [[(1, 5)], [(0, 3)]] := by
    intro r hr x hx
    simp only [List.length_cons, List.length_nil] at hr
    interval_cases r
    · simp only [List.getD_cons_zero] at hx
      rw [List.mem_singleton.mp hx]
      norm_num
    · simp only [List.getD_cons_succ, List.getD_cons_zero] at hx
      rw [List.mem_singleton.mp hx]
      norm_num
  have hT : TSNE.csrTotal (TSNE.symmetrizeMatrix [[(1, 5)], [(0, 3)]]) ≠ 0 := by
    norm_num [TSNE.csrTotal, TSNE.symmetrizeMatrix, TSNE.symOut,
      TSNE.processRow, TSNE.symWrite, TSNE.present, TSNE.findVal,
      TSNE.pairAppend, List.range_succ, List.find?]
  exact ⟨hB, hT, claim_C3_theorem [[(1, 5)], [(0, 3)]] hB hT⟩

/-- Claim C1 (amended): in `symmetrizeMatrix`, a reciprocal pair with
values `v` and `w` is stored in both rows with the averaged value
`(v + w) / 2` (as claimed); but a one-directional edge `(n, c, v)` whose
reciprocal is absent is stored in both rows as `v / 2` — the final
division by two at tsne.cpp lines 553-556 applies to every stored value,
so the newly added reciprocal is halved, not kept unchanged. -/
theorem claim_C1_theorem (P : List (List (ℕ × ℚ))) (n c : ℕ) (v : ℚ)
    (hn : n < P.length) (hmem : (c, v) ∈ P.getD n [])
    (hB : TSNE.ColsBounded P) (hD : TSNE.RowColsDistinct P) :
    (TSNE.present P c n = false →
      (c, v / 2) ∈ (TSNE.symmetrizeMatrix P).getD n [] ∧
      (n, v / 2) ∈ (TSNE.symmetrizeMatrix P).getD c []) ∧
    (TSNE.present P c n = true →
      (c, (v + TSNE.findVal (P.getD c []) n) / 2) ∈
        (TSNE.symmetrizeMatrix P).getD n [] ∧
      (n, (v + TSNE.findVal (P.getD c []) n) / 2) ∈
        (TSNE.symmetrizeMatrix P).getD c []) := by
  have hc : c < P.length := hB n hn (c, v) hmem
  constructor
  · intro hp
    have h := (TSNE.symOut_writes P n (c, v) hn hmem).1 hp
    exact ⟨by rw [TSNE.symRow_eq P n hn]
              exact List.mem_map.mpr ⟨(c, v), h.1, rfl⟩,
      by rw [TSNE.symRow_eq P c hc]
         exact List.mem_map.mpr ⟨(n, v), h.2, rfl⟩⟩
  · intro hp
    by_cases hle : n ≤ c
    · have h := (TSNE.symOut_writes P n (c, v) hn hmem).2 hp hle
      exact ⟨by rw [TSNE.symRow_eq P n hn]
                exact List.mem_map.mpr ⟨_, h.1, rfl⟩,
        by rw [TSNE.symRow_eq P c hc]
           exact List.mem_map.mpr ⟨_, h.2, rfl⟩⟩
    · have hrec := TSNE.present_mem P c n hp
      set w := TSNE.findVal (P.getD c []) n with hw
      have hpn : TSNE.present P n c = true := by
        unfold TSNE.present
        exact List.any_eq_true.mpr ⟨(c, v), hmem, by simp⟩
      have h2 := (TSNE.symOut_writes P c (n, w) hc hrec).2 hpn
        (Nat.le_of_lt (Nat.lt_of_not_le hle))
      have hfv : TSNE.findVal (P.getD n []) c = v :=
        TSNE.findVal_of_mem_distinct _ c v hmem (hD n hn)
      rw [hfv, add_comm w v] at h2
      exact ⟨by rw [TSNE.symRow_eq P n hn]
                exact List.mem_map.mpr ⟨_, h2.2, rfl⟩,
        by rw [TSNE.symRow_eq P c hc]
           exact List.mem_map.mpr ⟨_, h2.1, rfl⟩⟩

/-- Witness for C1 on the reciprocal pair 0 → 1 (value 1) and 1 → 0
(value 3). -/
theorem claim_C1_witness :
    ((0 : ℕ) < ([[(1, 5)], [(0, 3)]] : List (List (ℕ × ℚ))).length) ∧
    ((1, (5 : ℚ)) ∈ ([[(1, 5)], [(0, 3)]] : List (List (ℕ × ℚ))).getD 0 []) ∧
    TSNE.ColsBounded [[(1, 5)], [(0, 3)]] ∧
    TSNE.RowColsDistinct [[(1, 5)], [(0, 3)]] ∧
    ((TSNE.present [[(1, 5)], [(0, 3)]] 1 0 = false →
      (1, (5 : ℚ) / 2) ∈ (TSNE.symmetrizeMatrix [[(1, 5)], [(0, 3)]]).getD 0 [] ∧
      (0, (5 : ℚ) / 2) ∈ (TSNE.symmetrizeMatrix [[(1, 5)], [(0, 3)]]).getD 1 []) ∧
    (TSNE.present [[(1, 5)], [(0, 3)]] 1 0 = true →
      (1, ((5 : ℚ) + TSNE.findVal ([[(1, 5)], [(0, 3)]].getD 1 []) 0) / 2) ∈
        (TSNE.symmetrizeMatrix [[(1, 5)], [(0, 3)]]).getD 0 [] ∧
      (0, ((5 : ℚ) + TSNE.findVal ([[(1, 5)], [(0, 3)]].getD 1 []) 0) / 2) ∈
        (TSNE.symmetrizeMatrix [[(1, 5)], [(0, 3)]]).getD 1 [])) := by
  have hn : (0 : ℕ) < ([[(1, 5)], [(0, 3)]] : List (List (ℕ × ℚ))).length := by
    norm_num
  have hmem : ((1 : ℕ), (5 : ℚ)) ∈
      ([[(1, 5)], [(0, 3)]] : List (List (ℕ × ℚ))).getD 0 [] := by
    simp
  have hB : TSNE.ColsBounded [[(1, 5)], [(0, 3)]] := by
    intro r hr x hx
    simp only [List.length_cons, List.length_nil] at hr
    interval_cases r
    · simp only [List.getD_cons_zero] at hx
      rw [List.mem_singleton.mp hx]
      norm_num
    · simp only [List.getD_cons_succ, List.getD_cons_zero] at hx
      rw [List.mem_singleton.mp hx]
      norm_num
  have hD : TSNE.RowColsDistinct [[(1, 5)], [(0, 3)]] := by
    intro r hr
    simp only [List.length_cons, List.length_nil] at hr
    interval_cases r
    · simp
    · simp
  exact ⟨hn, hmem, hB, hD, claim_C1_theorem [[(1, 5)], [(0, 3)]] 0 1 5 hn hmem hB hD⟩

/-- Claim C1 counterexample: for the one-directional edge 0 → 1 with value
1 and no reciprocal, both output rows store 1/2, not the unchanged value 1:
the final halving at tsne.cpp lines 553-556 applies to newly added
reciprocals too. -/
theorem claim_C1_counterexample :
    TSNE.symmetrizeMatrix [[(1, 5)], []] = [[(1, 5/2)], [(0, 5/2)]] ∧
    ((5 : ℚ) / 2) ≠ 5 := by
  constructor
  · norm_num [TSNE.symmetrizeMatrix, TSNE.symOut, TSNE.processRow,
      TSNE.symWrite, TSNE.present, TSNE.findVal, TSNE.pairAppend,
      List.range_succ, List.find?]
  · norm_num

namespace VpTree

theorem heapPush_length (h : List (ℕ × ℚ)) (x : ℕ × ℚ) :
    (heapPush h x).length = h.length + 1 := by
  induction h with
  | nil => rfl
  | cons y t ih =>
    unfold heapPush
    by_cases hc : x.2 ≤ y.2
    · rw [if_pos hc]
      simp [ih]
    · rw [if_neg hc]
      simp

theorem mem_heapPush (h : List (ℕ × ℚ)) (x y : ℕ × ℚ) :
    y ∈ heapPush h x ↔ y ∈ h ∨ y = x := by
  induction h with
  | nil => simp [heapPush, eq_comm]
  | cons z t ih =>
    unfold heapPush
    by_cases hc : x.2 ≤ z.2
    · rw [if_pos hc]
      simp only [List.mem_cons, ih]
      tauto
    · rw [if_neg hc]
      simp only [List.mem_cons]
      tauto

theorem heapPush_sorted (h : List (ℕ × ℚ)) (x : ℕ × ℚ)
    (hs : h.Sorted (fun a b => b.2 ≤ a.2)) :
    (heapPush h x).Sorted (fun a b => b.2 ≤ a.2) := by
  induction h with
  | nil => simp [heapPush]
  | cons z t ih =>
    rw [List.sorted_cons] at hs
    unfold heapPush
    by_cases hc : x.2 ≤ z.2
    · rw [if_pos hc]
      rw [List.sorted_cons]
      refine ⟨?_, ih hs.2⟩
      intro b hb
      rcases (mem_heapPush t x b).mp hb with hb | hb
      · exact hs.1 b hb
      · rw [hb]; exact hc
    · rw [if_neg hc]
      rw [List.sorted_cons]
      refine ⟨?_, List.sorted_cons.mpr hs⟩
      intro b hb
      rcases List.mem_cons.mp hb with hb | hb
      · rw [hb]; exact le_of_lt (lt_of_not_le hc)
      · exact le_trans (hs.1 b hb) (le_of_lt (lt_of_not_le hc))

theorem heapTopD_max (h : List (ℕ × ℚ))
    (hs : h.Sorted (fun a b => b.2 ≤ a.2)) :
    ∀ e ∈ h, e.2 ≤ heapTopD h := by
  intro e he
  cases h with
  | nil => simp at he
  | cons z t =>
    rw [List.sorted_cons] at hs
    rcases List.mem_cons.mp he with he | he
    · rw [he]; exact le_refl _
    · exact hs.1 e he

theorem heapPop_sorted (h : List (ℕ × ℚ))
    (hs : h.Sorted (fun a b => b.2 ≤ a.2)) :
    (heapPop h).Sorted (fun a b => b.2 ≤ a.2) := by
  cases h with
  | nil => simpa [heapPop] using hs
  | cons z t => exact (List.sorted_cons.mp hs).2

theorem heapPop_subset (h : List (ℕ × ℚ)) : heapPop h ⊆ h :=
  List.tail_subset h

theorem cons_getD_set_perm : ∀ (t : List Pt) (m : ℕ) (a : Pt),
    m < t.length → List.Perm (t.getD m [] :: t.set m a) (a :: t) := by
  intro t
  induction t with
  | nil => intro m a h; simp at h
  | cons b t' ih =>
    intro m a h
    cases m with
    | zero =>
      simp only [List.getD_cons_zero, List.set_cons_zero]
      exact List.Perm.swap a b t'
    | succ m' =>
      simp only [List.getD_cons_succ, List.set_cons_succ]
      have h1 : List.Perm (t'.getD m' [] :: b :: t'.set m' a)
          (b :: t'.getD m' [] :: t'.set m' a) :=
        List.Perm.swap b (t'.getD m' []) _
      have h2 := (ih m' a (by simpa using h)).cons b
      have h3 : List.Perm (b :: a :: t') (a :: b :: t') := List.Perm.swap a b t'
      exact h1.trans (h2.trans h3)

theorem listSwap_perm : ∀ (l : List Pt) (i j : ℕ), i < l.length →
    j < l.length → List.Perm (listSwap l i j) l := by
  intro l
  induction l with
  | nil => intro i j hi _; simp at hi
  | cons a t ih =>
    intro i j hi hj
    cases i with
    | zero =>
      cases j with
      | zero => simp [listSwap]
      | succ m =>
        simp only [listSwap, List.getD_cons_succ, List.getD_cons_zero,
          List.set_cons_zero, List.set_cons_succ]
        exact cons_getD_set_perm t m a (by simpa using hj)
    | succ n =>
      cases j with
      | zero =>
        simp only [listSwap, List.getD_cons_succ, List.getD_cons_zero,
          List.set_cons_succ, List.set_cons_zero]
        exact cons_getD_set_perm t n a (by simpa using hi)
      | succ m =>
        simp only [listSwap, List.getD_cons_succ, List.set_cons_succ]
        exact (ih n m (by simpa using hi) (by simpa using hj)).cons a

theorem listSwap_length (l : List Pt) (i j : ℕ) :
    (listSwap l i j).length = l.length := by
  simp [listSwap]

theorem listSwap_getD_ne (l : List Pt) (i j m : ℕ) (hmi : m ≠ i)
    (hmj : m ≠ j) : (listSwap l i j).getD m [] = l.getD m [] := by
  by_cases hm : m < l.length
  · rw [List.getD_eq_getElem _ _ (by rw [listSwap_length]; exact hm),
      List.getD_eq_getElem _ _ hm]
    unfold listSwap
    rw [List.getElem_set_of_ne (Ne.symm hmj), List.getElem_set_of_ne (Ne.symm hmi)]
  · rw [List.getD_eq_default _ _ (by rw [listSwap_length]; omega),
      List.getD_eq_default _ _ (by omega)]

theorem sortRange_length (items : List Pt) (lo hi : ℕ) (pivot : Pt)
    (hlo : lo ≤ hi) (hhi : hi ≤ items.length) :
    (sortRange items lo hi pivot).length = items.length := by
  rw [sortRange]
  simp only [List.length_append, List.length_mergeSort, List.length_take,
    List.length_drop]
  omega

theorem sortRange_getD_lt (items : List Pt) (lo hi : ℕ) (pivot : Pt)
    (j : ℕ) (hj : j < lo) (hlo : lo ≤ hi) (hhi : hi ≤ items.length) :
    (sortRange items lo hi pivot).getD j [] = items.getD j [] := by
  have hjlen : j < items.length := by omega
  rw [List.getD_eq_getElem _ _
      (by rw [sortRange_length items lo hi pivot hlo hhi]; exact hjlen),
    List.getD_eq_getElem _ _ hjlen]
  unfold sortRange
  rw [List.getElem_append_left (by simp [List.length_take]; omega)]
  simp [List.getElem_take]

theorem sortRange_getD_mid (items : List Pt) (lo hi : ℕ) (pivot : Pt)
    (j : ℕ) (hj1 : lo ≤ j) (hj2 : j < hi) (hhi : hi ≤ items.length) :
    (sortRange items lo hi pivot).getD j [] =
      (((items.drop lo).take (hi - lo)).mergeSort
        (fun a b => euclidean_distance_squared pivot a ≤
          euclidean_distance_squared pivot b)).getD (j - lo) [] := by
  have hjlen : j < items.length := by omega
  have hmidlen : (((items.drop lo).take (hi - lo)).mergeSort
      (fun a b => euclidean_distance_squared pivot a ≤
        euclidean_distance_squared pivot b)).length = hi - lo := by
    simp only [List.length_mergeSort, List.length_take, List.length_drop]
    omega
  rw [List.getD_eq_getElem _ _
      (by rw [sortRange_length items lo hi pivot (by omega) hhi]; exact hjlen),
    List.getD_eq_getElem _ _ (by rw [hmidlen]; omega)]
  unfold sortRange
  rw [List.getElem_append_right (by simp [List.length_take]; omega)]
  rw [List.getElem_append_left]
  · congr 1
    simp only [List.length_take]
    omega
  · rw [hmidlen]
    simp only [List.length_take]
    omega

theorem sortRange_getD_ge (items : List Pt) (lo hi : ℕ) (pivot : Pt)
    (j : ℕ) (hj : hi ≤ j) (hlo : lo ≤ hi) (hhi : hi ≤ items.length) :
    (sortRange items lo hi pivot).getD j [] = items.getD j [] := by
  by_cases hjlen : j < items.length
  · have hmidlen : (((items.drop lo).take (hi - lo)).mergeSort
        (fun a b => euclidean_distance_squared pivot a ≤
          euclidean_distance_squared pivot b)).length = hi - lo := by
      simp only [List.length_mergeSort, List.length_take, List.length_drop]
      omega
    rw [List.getD_eq_getElem _ _
        (by rw [sortRange_length items lo hi pivot hlo hhi]; exact hjlen),
      List.getD_eq_getElem _ _ hjlen]
    unfold sortRange
    rw [List.getElem_append_right (by simp [List.length_take]; omega)]
    rw [List.getElem_append_right (by rw [hmidlen]; simp [List.length_take]; omega)]
    rw [List.getElem_drop]
    congr 1
    rw [hmidlen]
    simp only [List.length_take]
    omega
  · rw [List.getD_eq_default _ _
      (by rw [sortRange_length items lo hi pivot hlo hhi]; omega),
      List.getD_eq_default _ _ (by omega)]

theorem sortRange_sorted_key (items : List Pt) (lo hi : ℕ) (pivot : Pt) :
    (((items.drop lo).take (hi - lo)).mergeSort
      (fun a b => euclidean_distance_squared pivot a ≤
        euclidean_distance_squared pivot b)).Sorted
      (fun a b => euclidean_distance_squared pivot a ≤
        euclidean_distance_squared pivot b) := by
  have h := @List.sorted_mergeSort Pt
    (fun a b : Pt => decide (euclidean_distance_squared pivot a ≤
      euclidean_distance_squared pivot b))
    (fun a b c hab hbc => by simp at hab hbc ⊢; exact le_trans hab hbc)
    (fun a b => by
      simpa using le_total (euclidean_distance_squared pivot a)
        (euclidean_distance_squared pivot b))
    ((items.drop lo).take (hi - lo))
  simpa [List.Sorted] using h

theorem sorted_getD_le (S : List Pt) (pivot : Pt)
    (hs : S.Sorted (fun a b => euclidean_distance_squared pivot a ≤
      euclidean_distance_squared pivot b))
    (a b : ℕ) (hab : a ≤ b) (hb : b < S.length) :
    euclidean_distance_squared pivot (S.getD a []) ≤
      euclidean_distance_squared pivot (S.getD b []) := by
  rcases Nat.eq_or_lt_of_le hab with h | h
  · subst h; exact le_refl _
  · rw [List.getD_eq_getElem _ _ (lt_trans h hb), List.getD_eq_getElem _ _ hb]
    exact List.Sorted.rel_get_of_lt hs (by simpa using h)

theorem sortRange_perm (items : List Pt) (lo hi : ℕ) (pivot : Pt)
    (hlo : lo ≤ hi) (hhi : hi ≤ items.length) :
    List.Perm (sortRange items lo hi pivot) items := by
  have h3 : (items.drop lo).drop (hi - lo) = items.drop hi := by
    rw [List.drop_drop]
    congr 1
    omega
  have h2 : items.drop lo =
      (items.drop lo).take (hi - lo) ++ items.drop hi := by
    rw [← h3]
    exact (List.take_append_drop _ _).symm
  have hdecomp : items = items.take lo ++
      (((items.drop lo).take (hi - lo)) ++ items.drop hi) := by
    conv_lhs => rw [← List.take_append_drop lo items]
    exact congrArg (fun z => items.take lo ++ z) h2
  nth_rewrite 2 [hdecomp]
  unfold sortRange
  exact List.Perm.append_left _
    (List.Perm.append_right _ (List.mergeSort_perm _ _))

theorem seg_getD (l : List Pt) (lo hi m : ℕ) (hm : m < hi - lo)
    (hhi : hi ≤ l.length) : (seg l lo hi).getD m [] = l.getD (lo + m) [] := by
  unfold seg
  have hlen : m < ((l.drop lo).take (hi - lo)).length := by
    simp only [List.length_take, List.length_drop]
    omega
  rw [List.getD_eq_getElem _ _ hlen, List.getD_eq_getElem _ _ (by omega)]
  rw [List.getElem_take, List.getElem_drop]

theorem getD_mem_seg (l : List Pt) (lo hi j : ℕ) (h1 : lo ≤ j) (h2 : j < hi)
    (hhi : hi ≤ l.length) : l.getD j [] ∈ seg l lo hi := by
  have : (seg l lo hi).getD (j - lo) [] = l.getD j [] := by
    rw [seg_getD l lo hi (j - lo) (by omega) hhi]
    congr 1
    omega
  rw [← this]
  have hlen : j - lo < (seg l lo hi).length := by
    simp only [seg, List.length_take, List.length_drop]
    omega
  rw [List.getD_eq_getElem _ _ hlen]
  exact List.getElem_mem hlen

theorem mem_seg_exists (l : List Pt) (lo hi : ℕ) (x : Pt)
    (hx : x ∈ seg l lo hi) (hhi : hi ≤ l.length) :
    ∃ j, lo ≤ j ∧ j < hi ∧ l.getD j [] = x := by
  obtain ⟨m, hm, hget⟩ := List.mem_iff_getElem.mp hx
  have hm2 : m < hi - lo := by
    simp only [seg, List.length_take, List.length_drop] at hm
    omega
  refine ⟨lo + m, by omega, by omega, ?_⟩
  rw [← seg_getD l lo hi m hm2 hhi, List.getD_eq_getElem _ _ hm]
  exact hget

theorem take_eq_of_agree (l1 l2 : List Pt) (lo : ℕ)
    (hlen : l1.length = l2.length)
    (hout : ∀ j, j < lo → l1.getD j [] = l2.getD j []) :
    l1.take lo = l2.take lo := by
  apply List.ext_getElem
  · simp [hlen]
  · intro j h1 h2
    have hj : j < lo := by
      simp only [List.length_take] at h1
      omega
    have hjl : j < l1.length := by
      simp only [List.length_take] at h1
      omega
    rw [List.getElem_take, List.getElem_take]
    have := hout j hj
    rwa [List.getD_eq_getElem _ _ hjl, List.getD_eq_getElem _ _ (by omega)] at this

theorem drop_eq_of_agree (l1 l2 : List Pt) (hi : ℕ)
    (hlen : l1.length = l2.length)
    (hout : ∀ j, hi ≤ j → l1.getD j [] = l2.getD j []) :
    l1.drop hi = l2.drop hi := by
  apply List.ext_getElem
  · simp [hlen]
  · intro j h1 h2
    have hjl : hi + j < l1.length := by
      simp only [List.length_drop] at h1
      omega
    rw [List.getElem_drop, List.getElem_drop]
    have := hout (hi + j) (by omega)
    rwa [List.getD_eq_getElem _ _ hjl, List.getD_eq_getElem _ _ (by omega)] at this

theorem decomp_seg (l : List Pt) (lo hi : ℕ) (hlo : lo ≤ hi)
    (hhi : hi ≤ l.length) : l = l.take lo ++ (seg l lo hi ++ l.drop hi) := by
  have h3 : (l.drop lo).drop (hi - lo) = l.drop hi := by
    rw [List.drop_drop]
    congr 1
    omega
  have h2 : l.drop lo = seg l lo hi ++ l.drop hi := by
    rw [← h3]
    exact (List.take_append_drop _ _).symm
  conv_lhs => rw [← List.take_append_drop lo l]
  exact congrArg (fun z => l.take lo ++ z) h2

theorem seg_perm_of (l1 l2 : List Pt) (lo hi : ℕ)
    (hlen : l1.length = l2.length) (hperm : List.Perm l1 l2)
    (hout : ∀ j, j < lo ∨ hi ≤ j → l1.getD j [] = l2.getD j [])
    (hlo : lo ≤ hi) (hhi : hi ≤ l1.length) :
    List.Perm (seg l1 lo hi) (seg l2 lo hi) := by
  have htake : l1.take lo = l2.take lo :=
    take_eq_of_agree l1 l2 lo hlen (fun j hj => hout j (Or.inl hj))
  have hdrop : l1.drop hi = l2.drop hi :=
    drop_eq_of_agree l1 l2 hi hlen (fun j hj => hout j (Or.inr hj))
  have h1 := decomp_seg l1 lo hi hlo hhi
  have h2 := decomp_seg l2 lo hi hlo (by omega)
  have hp : List.Perm (l1.take lo ++ (seg l1 lo hi ++ l1.drop hi))
      (l1.take lo ++ (seg l2 lo hi ++ l1.drop hi)) := by
    rw [← h1, htake, hdrop, ← h2]
    exact hperm
  have hmid := (List.perm_append_left_iff _).mp hp
  exact (List.perm_append_right_iff _).mp hmid

/-- Well-formedness only inspects the items at positions inside the node's
range (plus the array length), so it transfers along pointwise agreement
there. -/
theorem wf_true_mono : ∀ (t : VNode) (lo hi : ℕ) (l1 l2 : List Pt),
    l1.length = l2.length →
    (∀ j, lo ≤ j → j < hi → l1.getD j [] = l2.getD j []) →
    wf l1 t lo hi = true → wf l2 t lo hi = true := by
  intro t
  induction t with
  | nil => intro lo hi l1 l2 _ _ h; simpa [wf] using h
  | node idx thr l r ihl ihr =>
    intro lo hi l1 l2 hlen hagree h
    simp only [wf, Bool.and_eq_true, decide_eq_true_eq] at h ⊢
    obtain ⟨hidx, hlohi, hlt, hrest⟩ := h
    refine ⟨hidx, hlohi, by omega, ?_⟩
    by_cases hleaf : hi = lo + 1
    · rw [if_pos hleaf] at hrest ⊢
      exact hrest
    · rw [if_neg hleaf] at hrest ⊢
      obtain ⟨⟨⟨hwl, hwr⟩, hbl⟩, hbr⟩ := hrest
      have hmed1 : lo + 1 ≤ (hi + lo) / 2 := by omega
      have hmed2 : (hi + lo) / 2 ≤ hi := by omega
      refine ⟨⟨⟨?_, ?_⟩, ?_⟩, ?_⟩
      · exact ihl (lo + 1) ((hi + lo) / 2) l1 l2 hlen
          (fun j h1 h2 => hagree j (by omega) (by omega)) hwl
      · exact ihr ((hi + lo) / 2) hi l1 l2 hlen
          (fun j h1 h2 => hagree j (by omega) (by omega)) hwr
      · rw [List.all_eq_true] at hbl ⊢
        intro j hj
        have hjr := List.mem_range'_1.mp hj
        have := hbl j hj
        rw [← hagree lo (le_refl lo) (by omega),
          ← hagree j (by omega) (by omega)]
        exact this
      · rw [List.all_eq_true] at hbr ⊢
        intro j hj
        have hjr := List.mem_range'_1.mp hj
        have := hbr j hj
        rw [← hagree lo (le_refl lo) (by omega),
          ← hagree j (by omega) (by omega)]
        exact this

/-- What `buildFromPoints` guarantees: the returned item array has the same
length, is untouched outside `[lo, hi)`, is a permutation of the input, and
the returned subtree is well-formed over it. -/
theorem buildFromPoints_spec (pick : ℕ → ℕ → ℕ) :
    ∀ (d : ℕ) (items : List Pt) (lo hi : ℕ), hi - lo ≤ d → lo ≤ hi →
      hi ≤ items.length →
      (buildFromPoints pick items lo hi).1.length = items.length ∧
      (∀ j, j < lo ∨ hi ≤ j →
        (buildFromPoints pick items lo hi).1.getD j [] = items.getD j []) ∧
      List.Perm (buildFromPoints pick items lo hi).1 items ∧
      wf (buildFromPoints pick items lo hi).1
        (buildFromPoints pick items lo hi).2 lo hi = true := by
  intro d
  induction d with
  | zero =>
    intro items lo hi hd hlo hhi
    have h0 : hi = lo := by omega
    subst h0
    rw [buildFromPoints, if_pos rfl]
    exact ⟨rfl, fun j _ => rfl, List.Perm.refl _, by simp [wf]⟩
  | succ d ih =>
    intro items lo hi hd hlo hhi
    by_cases h0 : hi = lo
    · subst h0
      rw [buildFromPoints, if_pos rfl]
      exact ⟨rfl, fun j _ => rfl, List.Perm.refl _, by simp [wf]⟩
    by_cases h1 : hi - lo > 1
    case neg =>
      have hleaf : hi = lo + 1 := by omega
      rw [buildFromPoints, if_neg h0, dif_neg h1]
      refine ⟨rfl, fun j _ => rfl, List.Perm.refl _, ?_⟩
      subst hleaf
      simp only [wf, Bool.and_eq_true, decide_eq_true_eq, if_pos rfl]
      refine ⟨trivial, by omega, by omega, trivial, trivial⟩
    case pos =>
      have hkv : pick lo hi % (hi - lo) < hi - lo := Nat.mod_lt _ (by omega)
      set i := lo + pick lo hi % (hi - lo) with hidef
      have hi1 : lo ≤ i := by omega
      have hi2 : i < hi := by omega
      set items1 := listSwap items lo i with hitems1
      set med := (hi + lo) / 2 with hmeddef
      set pivot := items1.getD lo [] with hpivotdef
      set items2 := sortRange items1 (lo + 1) hi pivot with hitems2
      set thr := euclidean_distance_squared pivot (items2.getD med [])
        with hthrdef
      set b1 := buildFromPoints pick items2 (lo + 1) med with hb1def
      set b2 := buildFromPoints pick b1.1 med hi with hb2def
      have heq : buildFromPoints pick items lo hi =
          (b2.1, VNode.node lo thr b1.2 b2.2) := by
        rw [buildFromPoints]
        rw [if_neg h0, dif_pos h1]
      rw [heq]
      have hlen1 : items1.length = items.length := listSwap_length items lo i
      have hperm1 : List.Perm items1 items :=
        listSwap_perm items lo i (by omega) (by omega)
      have hout1 : ∀ j, j < lo ∨ hi ≤ j →
          items1.getD j [] = items.getD j [] := by
        intro j hj
        exact listSwap_getD_ne items lo i j (by omega) (by omega)
      have hlen2 : items2.length = items.length := by
        rw [hitems2, sortRange_length items1 (lo + 1) hi pivot (by omega)
          (by omega), hlen1]
      have hperm2 : List.Perm items2 items := by
        rw [hitems2]
        exact (sortRange_perm items1 (lo + 1) hi pivot (by omega)
          (by omega)).trans hperm1
      have hout2 : ∀ j, j < lo ∨ hi ≤ j →
          items2.getD j [] = items.getD j [] := by
        intro j hj
        rcases hj with hj | hj
        · rw [hitems2, sortRange_getD_lt items1 (lo + 1) hi pivot j
            (by omega) (by omega) (by omega)]
          exact hout1 j (Or.inl hj)
        · rw [hitems2, sortRange_getD_ge items1 (lo + 1) hi pivot j
            (by omega) (by omega) (by omega)]
          exact hout1 j (Or.inr hj)
      have hmed1 : lo + 1 ≤ med := by omega
      have hmed2 : med < hi := by omega
      obtain ⟨hb1len, hb1out, hb1perm, hb1wf⟩ :=
        ih items2 (lo + 1) med (by omega) (by omega) (by omega)
      rw [← hb1def] at hb1len hb1out hb1perm hb1wf
      obtain ⟨hb2len, hb2out, hb2perm, hb2wf⟩ :=
        ih b1.1 med hi (by omega) (by omega) (by omega)
      rw [← hb2def] at hb2len hb2out hb2perm hb2wf
      have hlenb1 : b1.1.length = items.length := by rw [hb1len, hlen2]
      have hlenb2 : b2.1.length = items.length := by rw [hb2len, hlenb1]
      refine ⟨hlenb2, ?_, ?_, ?_⟩
      · intro j hj
        have hjb2 : j < med ∨ hi ≤ j := by omega
        have hjb1 : j < lo + 1 ∨ med ≤ j := by omega
        rw [hb2out j hjb2, hb1out j hjb1]
        exact hout2 j hj
      · exact hb2perm.trans (hb1perm.trans hperm2)
      · -- well-formedness of the assembled node
        have hpivot_b2 : b2.1.getD lo [] = pivot := by
          rw [hb2out lo (Or.inl (by omega)), hb1out lo (Or.inl (by omega)),
            hitems2, sortRange_getD_lt items1 (lo + 1) hi pivot lo
              (by omega) (by omega) (by omega)]
        have hseglen : (((items1.drop (lo + 1)).take (hi - (lo + 1))).mergeSort
            (fun a b => euclidean_distance_squared pivot a ≤
              euclidean_distance_squared pivot b)).length = hi - (lo + 1) := by
          simp only [List.length_mergeSort, List.length_take, List.length_drop]
          omega
        have hsorted := sortRange_sorted_key items1 (lo + 1) hi pivot
        -- key comparison of two in-range positions of items2
        have hkey : ∀ a b : ℕ, lo + 1 ≤ a → a ≤ b → b < hi →
            euclidean_distance_squared pivot (items2.getD a []) ≤
              euclidean_distance_squared pivot (items2.getD b []) := by
          intro a b ha hab hb
          rw [hitems2, sortRange_getD_mid items1 (lo + 1) hi pivot a ha
              (by omega) (by omega),
            sortRange_getD_mid items1 (lo + 1) hi pivot b (by omega)
              (by omega) (by omega)]
          exact sorted_getD_le _ pivot hsorted (a - (lo + 1)) (b - (lo + 1))
            (by omega) (by rw [hseglen]; omega)
        simp only [wf, Bool.and_eq_true, decide_eq_true_eq]
        refine ⟨trivial, by omega, by omega, ?_⟩
        rw [if_neg (by omega)]
        rw [← hmeddef]
        refine ⟨⟨⟨?_, ?_⟩, ?_⟩, ?_⟩
        · -- left child, transported to the final array
          exact wf_true_mono b1.2 (lo + 1) med b1.1 b2.1 hb2len.symm
            (fun j hj1 hj2 => (hb2out j (Or.inl hj2)).symm) hb1wf
        · exact hb2wf
        · rw [List.all_eq_true]
          intro j hj
          have hjr := List.mem_range'_1.mp hj
          simp only [decide_eq_true_eq]
          rw [hpivot_b2, hb2out j (Or.inl (by omega))]
          -- b1.1's value at j lies in items2's segment [lo+1, med)
          have hmem : b1.1.getD j [] ∈ seg b1.1 (lo + 1) med :=
            getD_mem_seg b1.1 (lo + 1) med j (by omega) (by omega) (by omega)
          have hsegperm : List.Perm (seg b1.1 (lo + 1) med)
              (seg items2 (lo + 1) med) :=
            seg_perm_of b1.1 items2 (lo + 1) med hb1len hb1perm hb1out
              (by omega) (by omega)
          obtain ⟨jp, hjp1, hjp2, hjp3⟩ := mem_seg_exists items2 (lo + 1) med
            (b1.1.getD j []) (hsegperm.mem_iff.mp hmem) (by omega)
          rw [← hjp3]
          exact hkey jp med hjp1 (by omega) (by omega)
        · rw [List.all_eq_true]
          intro j hj
          have hjr := List.mem_range'_1.mp hj
          simp only [decide_eq_true_eq]
          rw [hpivot_b2]
          have hmem : b2.1.getD j [] ∈ seg b2.1 med hi :=
            getD_mem_seg b2.1 med hi j (by omega) (by omega) (by omega)
          have hsegperm : List.Perm (seg b2.1 med hi) (seg b1.1 med hi) :=
            seg_perm_of b2.1 b1.1 med hi hb2len hb2perm hb2out
              (by omega) (by omega)
          obtain ⟨jp, hjp1, hjp2, hjp3⟩ := mem_seg_exists b1.1 med hi
            (b2.1.getD j []) (hsegperm.mem_iff.mp hmem) (by omega)
          rw [← hjp3, hb1out jp (Or.inr hjp1)]
          exact hkey med jp (by omega) hjp1 hjp2

theorem DBL_MAX_pos : 0 < DBL_MAX := by norm_num [DBL_MAX]

theorem getD_mem (l : List Pt) (i : ℕ) (hi : i < l.length) :
    l.getD i [] ∈ l := by
  rw [List.getD_eq_getElem _ _ hi]
  exact List.getElem_mem hi

theorem heapPop_length (h : List (ℕ × ℚ)) :
    (heapPop h).length = h.length - 1 := by
  unfold heapPop
  exact List.length_tail h

theorem tau_nonneg (items : List Pt) (target : Pt) (k : ℕ)
    (st : List (ℕ × ℚ) × ℚ) (hk : 1 ≤ k)
    (hinv : HeapInv items target k st) : 0 ≤ st.2 := by
  by_cases hl : st.1.length = k
  · rw [hinv.2.2.2.1 hl]
    have hne : st.1 ≠ [] := by
      intro hnil
      rw [hnil] at hl
      simp at hl
      omega
    obtain ⟨z, t, hh⟩ := List.exists_cons_of_ne_nil hne
    have hz := hinv.2.2.2.2 z (by rw [hh]; exact List.mem_cons_self z t)
    unfold heapTopD
    rw [hh]
    simp only [List.headD_cons]
    rw [hz.2]
    exact euclidean_distance_squared_nonneg _ _
  · have hlt : st.1.length < k := lt_of_le_of_ne hinv.2.1 hl
    rw [hinv.2.2.1 hlt]
    exact le_of_lt DBL_MAX_pos

/-- The visit block preserves the invariant and never loses a
target-distance-zero entry. -/
theorem visit_spec (items : List Pt) (target : Pt) (k idx : ℕ)
    (st : List (ℕ × ℚ) × ℚ) (hk : 1 ≤ k) (hidx : idx < items.length)
    (hinv : HeapInv items target k st) :
    HeapInv items target k
      (visit k idx (euclidean_distance_squared (items.getD idx []) target)
        st) ∧
    (HasTarget items target st.1 →
      HasTarget items target
        (visit k idx
          (euclidean_distance_squared (items.getD idx []) target) st).1) := by
  obtain ⟨hsort, hlek, htau1, htau2, hprov⟩ := hinv
  set dist := euclidean_distance_squared (items.getD idx []) target
    with hdistdef
  have hd0 : (0 : ℚ) ≤ dist := by
    rw [hdistdef]
    exact euclidean_distance_squared_nonneg _ _
  unfold visit
  by_cases hc : dist < st.2
  case neg =>
    rw [if_neg hc]
    exact ⟨⟨hsort, hlek, htau1, htau2, hprov⟩, id⟩
  case pos =>
    rw [if_pos hc]
    by_cases hfull : st.1.length = k
    case pos =>
      rw [if_pos hfull]
      have hne : st.1 ≠ [] := by
        intro hnil
        rw [hnil] at hfull
        simp at hfull
        omega
      obtain ⟨z, t, hh⟩ := List.exists_cons_of_ne_nil hne
      have hlenpush : (heapPush (heapPop st.1) (idx, dist)).length = k := by
        rw [heapPush_length, heapPop_length, hfull]
        omega
      show HeapInv items target k (heapPush (heapPop st.1) (idx, dist),
          if (heapPush (heapPop st.1) (idx, dist)).length = k then
            heapTopD (heapPush (heapPop st.1) (idx, dist)) else st.2) ∧
        (HasTarget items target st.1 → HasTarget items target
          (heapPush (heapPop st.1) (idx, dist)))
      rw [if_pos hlenpush]
      refine ⟨⟨?_, ?_, ?_, ?_, ?_⟩, ?_⟩
      · exact heapPush_sorted _ _ (heapPop_sorted st.1 hsort)
      · rw [hlenpush]
      · intro hcon
        rw [hlenpush] at hcon
        omega
      · intro _
        rfl
      · intro e he
        rcases (mem_heapPush _ _ e).mp he with he | he
        · exact hprov e (heapPop_subset st.1 he)
        · rw [he]
          exact ⟨hidx, rfl⟩
      · rintro ⟨e, he, he0, hec⟩
        refine ⟨e, ?_, he0, hec⟩
        apply (mem_heapPush _ _ e).mpr
        left
        rw [hh] at he
        rcases List.mem_cons.mp he with he | he
        · exfalso
          have htop := htau2 hfull
          rw [hh] at htop
          unfold heapTopD at htop
          simp only [List.headD_cons] at htop
          rw [← he, he0] at htop
          rw [htop] at hc
          linarith
        · unfold heapPop
          rw [hh]
          simpa using he
    case neg =>
      rw [if_neg hfull]
      have hlt : st.1.length < k := lt_of_le_of_ne hlek hfull
      have hlenpush : (heapPush st.1 (idx, dist)).length = st.1.length + 1 :=
        heapPush_length st.1 (idx, dist)
      show HeapInv items target k (heapPush st.1 (idx, dist),
          if (heapPush st.1 (idx, dist)).length = k then
            heapTopD (heapPush st.1 (idx, dist)) else st.2) ∧
        (HasTarget items target st.1 → HasTarget items target
          (heapPush st.1 (idx, dist)))
      refine ⟨⟨?_, ?_, ?_, ?_, ?_⟩, ?_⟩
      · exact heapPush_sorted st.1 (idx, dist) hsort
      · show (heapPush st.1 (idx, dist)).length ≤ k
        rw [hlenpush]
        omega
      · intro hcon
        rw [hlenpush] at hcon
        show (if (heapPush st.1 (idx, dist)).length = k then
          heapTopD (heapPush st.1 (idx, dist)) else st.2) = DBL_MAX
        rw [if_neg (by rw [hlenpush]; omega)]
        exact htau1 hlt
      · intro hfull2
        show (if (heapPush st.1 (idx, dist)).length = k then
          heapTopD (heapPush st.1 (idx, dist)) else st.2) =
          heapTopD (heapPush st.1 (idx, dist))
        rw [if_pos hfull2]
      · intro e he
        rcases (mem_heapPush _ _ e).mp he with he | he
        · exact hprov e he
        · rw [he]
          exact ⟨hidx, rfl⟩
      · rintro ⟨e, he, he0, hec⟩
        exact ⟨e, (mem_heapPush _ _ e).mpr (Or.inl he), he0, hec⟩

/-- Visiting the target's own copy establishes a distance-zero entry (or
one is already at the top of a full heap). -/
theorem visit_discover (items : List Pt) (target : Pt) (k idx : ℕ)
    (st : List (ℕ × ℚ) × ℚ) (hk : 1 ≤ k) (hidx : idx < items.length)
    (hinv : HeapInv items target k st)
    (hlen : ∀ p ∈ items, p.length = target.length)
    (heq : items.getD idx [] = target) :
    HasTarget items target
      (visit k idx (euclidean_distance_squared (items.getD idx []) target)
        st).1 := by
  have hdist0 : euclidean_distance_squared (items.getD idx []) target = 0 := by
    rw [heq]
    exact euclidean_distance_squared_self target
  unfold visit
  by_cases hc : euclidean_distance_squared (items.getD idx []) target < st.2
  case pos =>
    rw [if_pos hc]
    by_cases hfull : st.1.length = k
    · rw [if_pos hfull]
      exact ⟨(idx, euclidean_distance_squared (items.getD idx []) target),
        (mem_heapPush _ _ _).mpr (Or.inr rfl), hdist0, heq⟩
    · rw [if_neg hfull]
      exact ⟨(idx, euclidean_distance_squared (items.getD idx []) target),
        (mem_heapPush _ _ _).mpr (Or.inr rfl), hdist0, heq⟩
  case neg =>
    rw [if_neg hc]
    have htau0 : st.2 = 0 := by
      have h1 : st.2 ≤ 0 := by
        rw [hdist0] at hc
        linarith [not_lt.mp hc]
      have h2 := tau_nonneg items target k st hk hinv
      linarith
    have hfull : st.1.length = k := by
      by_contra hcon
      have hlt : st.1.length < k := lt_of_le_of_ne hinv.2.1 hcon
      have hD := hinv.2.2.1 hlt
      rw [hD] at htau0
      have := DBL_MAX_pos
      rw [htau0] at this
      exact lt_irrefl 0 this
    have htop := hinv.2.2.2.1 hfull
    have hne : st.1 ≠ [] := by
      intro hnil
      rw [hnil] at hfull
      simp at hfull
      omega
    obtain ⟨z, t, hh⟩ := List.exists_cons_of_ne_nil hne
    have hz := hinv.2.2.2.2 z (by rw [hh]; exact List.mem_cons_self z t)
    have hz0 : z.2 = 0 := by
      rw [htau0] at htop
      rw [hh] at htop
      unfold heapTopD at htop
      simpa using htop.symm
    have hzc : items.getD z.1 [] = target := by
      apply euclidean_distance_squared_eq_zero _ _ ?_ (by rw [← hz.2]; exact hz0)
      exact hlen _ (getD_mem items z.1 hz.1)
    exact ⟨z, by rw [hh]; exact List.mem_cons_self z t, hz0, hzc⟩

theorem searchNode_node_eq (items : List Pt) (target : Pt) (k idx : ℕ)
    (thr : ℚ) (l r : VNode) (st : List (ℕ × ℚ) × ℚ) :
    searchNode items target k (VNode.node idx thr l r) st =
      (if l = VNode.nil ∧ r = VNode.nil then
        visit k idx (euclidean_distance_squared (items.getD idx []) target) st
      else searchChildren items target k
        (euclidean_distance_squared (items.getD idx []) target) thr l r
        (visit k idx (euclidean_distance_squared (items.getD idx []) target)
          st)) := rfl

theorem wf_node_elim (items : List Pt) (idx : ℕ) (thr : ℚ) (l r : VNode)
    (lo hi : ℕ) (h : wf items (VNode.node idx thr l r) lo hi = true) :
    idx = lo ∧ lo < hi ∧ lo < items.length ∧
    ((hi = lo + 1 ∧ l = VNode.nil ∧ r = VNode.nil) ∨
     (hi ≠ lo + 1 ∧ wf items l (lo + 1) ((hi + lo) / 2) = true ∧
      wf items r ((hi + lo) / 2) hi = true ∧
      (∀ j, lo + 1 ≤ j → j < (hi + lo) / 2 →
        euclidean_distance_squared (items.getD lo []) (items.getD j []) ≤
          thr) ∧
      (∀ j, (hi + lo) / 2 ≤ j → j < hi →
        thr ≤ euclidean_distance_squared (items.getD lo [])
          (items.getD j [])))) := by
  simp only [wf, Bool.and_eq_true, decide_eq_true_eq] at h
  obtain ⟨hidx, hlohi, hlt, hrest⟩ := h
  refine ⟨hidx, hlohi, hlt, ?_⟩
  by_cases hleaf : hi = lo + 1
  · rw [if_pos hleaf] at hrest
    exact Or.inl ⟨hleaf, hrest⟩
  · rw [if_neg hleaf] at hrest
    obtain ⟨⟨⟨hwl, hwr⟩, hbl⟩, hbr⟩ := hrest
    rw [List.all_eq_true] at hbl hbr
    refine Or.inr ⟨hleaf, hwl, hwr, ?_, ?_⟩
    · intro j h1 h2
      have := hbl j (List.mem_range'_1.mpr ⟨h1, by omega⟩)
      simpa using this
    · intro j h1 h2
      have := hbr j (List.mem_range'_1.mpr ⟨h1, by omega⟩)
      simpa using this

/-- The child traversal preserves the invariant and never loses a
distance-zero target entry, provided both child searches do. -/
theorem searchChildren_spec (items : List Pt) (target : Pt) (k : ℕ)
    (dist thr : ℚ) (l r : VNode) (st1 : List (ℕ × ℚ) × ℚ)
    (hl : ∀ st, HeapInv items target k st →
      HeapInv items target k (searchNode items target k l st) ∧
      (HasTarget items target st.1 →
        HasTarget items target (searchNode items target k l st).1))
    (hr : ∀ st, HeapInv items target k st →
      HeapInv items target k (searchNode items target k r st) ∧
      (HasTarget items target st.1 →
        HasTarget items target (searchNode items target k r st).1))
    (hinv : HeapInv items target k st1) :
    HeapInv items target k
      (searchChildren items target k dist thr l r st1) ∧
    (HasTarget items target st1.1 →
      HasTarget items target
        (searchChildren items target k dist thr l r st1).1) := by
  unfold searchChildren
  by_cases hb : dist < thr
  · rw [if_pos hb]
    by_cases hc1 : dist - st1.2 ≤ thr
    · rw [if_pos hc1]
      have h2 := hl st1 hinv
      by_cases hc2 : dist + (searchNode items target k l st1).2 ≥ thr
      · rw [if_pos hc2]
        have h3 := hr _ h2.1
        exact ⟨h3.1, fun h => h3.2 (h2.2 h)⟩
      · rw [if_neg hc2]
        exact h2
    · rw [if_neg hc1]
      by_cases hc2 : dist + st1.2 ≥ thr
      · rw [if_pos hc2]
        exact hr st1 hinv
      · rw [if_neg hc2]
        exact ⟨hinv, id⟩
  · rw [if_neg hb]
    by_cases hc1 : dist + st1.2 ≥ thr
    · rw [if_pos hc1]
      have h2 := hr st1 hinv
      by_cases hc2 : dist - (searchNode items target k r st1).2 ≤ thr
      · rw [if_pos hc2]
        have h3 := hl _ h2.1
        exact ⟨h3.1, fun h => h3.2 (h2.2 h)⟩
      · rw [if_neg hc2]
        exact h2
    · rw [if_neg hc1]
      by_cases hc2 : dist - st1.2 ≤ thr
      · rw [if_pos hc2]
        exact hl st1 hinv
      · rw [if_neg hc2]
        exact ⟨hinv, id⟩

/-- The recursive search preserves the invariant and never loses a
distance-zero target entry. -/
theorem searchNode_spec (items : List Pt) (target : Pt) (k : ℕ)
    (hk : 1 ≤ k) :
    ∀ (t : VNode) (lo hi : ℕ), wf items t lo hi = true →
      ∀ st, HeapInv items target k st →
        HeapInv items target k (searchNode items target k t st) ∧
        (HasTarget items target st.1 →
          HasTarget items target (searchNode items target k t st).1) := by
  intro t
  induction t with
  | nil =>
    intro lo hi _ st hinv
    simp only [searchNode]
    exact ⟨hinv, id⟩
  | node idx thr l r ihl ihr =>
    intro lo hi hwf st hinv
    obtain ⟨hidx, hlohi, hlt, hrest⟩ := wf_node_elim items idx thr l r lo hi
      hwf
    subst hidx
    rw [searchNode_node_eq]
    have hv := visit_spec items target k idx st hk hlt hinv
    by_cases hlr : l = VNode.nil ∧ r = VNode.nil
    · rw [if_pos hlr]
      exact hv
    · rw [if_neg hlr]
      rcases hrest with ⟨_, hl0, hr0⟩ | ⟨_, hwl, hwr, _, _⟩
      · exact absurd ⟨hl0, hr0⟩ hlr
      have hspec := searchChildren_spec items target k
        (euclidean_distance_squared (items.getD idx []) target) thr l r
        (visit k idx (euclidean_distance_squared (items.getD idx []) target)
          st)
        (fun st' hinv' => ihl (idx + 1) ((hi + idx) / 2) hwl st' hinv')
        (fun st' hinv' => ihr ((hi + idx) / 2) hi hwr st' hinv')
        hv.1
      exact ⟨hspec.1, fun h => hspec.2 (hv.2 h)⟩

/-- The recursive search discovers the target: if some position of the
searched range holds the target's coordinates, the returned heap holds a
distance-zero entry for it. -/
theorem searchNode_finds (items : List Pt) (target : Pt) (k : ℕ)
    (hk : 1 ≤ k) (hlen : ∀ p ∈ items, p.length = target.length) :
    ∀ (t : VNode) (lo hi : ℕ), wf items t lo hi = true →
      (∃ q, lo ≤ q ∧ q < hi ∧ items.getD q [] = target) →
      ∀ st, HeapInv items target k st →
        HasTarget items target (searchNode items target k t st).1 := by
  intro t
  induction t with
  | nil =>
    intro lo hi hwf hq st _
    obtain ⟨q, h1, h2, _⟩ := hq
    simp only [wf, decide_eq_true_eq] at hwf
    omega
  | node idx thr l r ihl ihr =>
    intro lo hi hwf hq st hinv
    obtain ⟨hidx, hlohi, hlt, hrest⟩ := wf_node_elim items idx thr l r lo hi
      hwf
    subst hidx
    obtain ⟨q, hq1, hq2, hq3⟩ := hq
    rw [searchNode_node_eq]
    set dist := euclidean_distance_squared (items.getD idx []) target
      with hdistdef
    set st1 := visit k idx dist st with hst1def
    have hv := visit_spec items target k idx st hk hlt hinv
    have hpl : ∀ st', HeapInv items target k st' →
        HeapInv items target k (searchNode items target k l st') ∧
        (HasTarget items target st'.1 →
          HasTarget items target (searchNode items target k l st').1) := by
      intro st' hinv'
      rcases hrest with ⟨_, hl0, _⟩ | ⟨_, hwl, _, _, _⟩
      · rw [hl0]
        simp only [searchNode]
        exact ⟨hinv', id⟩
      · exact searchNode_spec items target k hk l (idx + 1) ((hi + idx) / 2)
          hwl st' hinv'
    have hpr : ∀ st', HeapInv items target k st' →
        HeapInv items target k (searchNode items target k r st') ∧
        (HasTarget items target st'.1 →
          HasTarget items target (searchNode items target k r st').1) := by
      intro st' hinv'
      rcases hrest with ⟨_, _, hr0⟩ | ⟨_, _, hwr, _, _⟩
      · rw [hr0]
        simp only [searchNode]
        exact ⟨hinv', id⟩
      · exact searchNode_spec items target k hk r ((hi + idx) / 2) hi hwr
          st' hinv'
    by_cases hqlo : q = idx
    · -- the pivot itself is the target's copy: visit discovers it
      have hcoord : items.getD idx [] = target := by rw [← hqlo]; exact hq3
      have hdisc := visit_discover items target k idx st hk hlt hinv hlen
        hcoord
      by_cases hlr : l = VNode.nil ∧ r = VNode.nil
      · rw [if_pos hlr]
        exact hdisc
      · rw [if_neg hlr]
        exact (searchChildren_spec items target k dist thr l r st1 hpl hpr
          hv.1).2 hdisc
    · -- the copy lives in one of the children's ranges
      rcases hrest with ⟨hleaf, _, _⟩ | ⟨hne, hwl, hwr, hbl, hbr⟩
      · omega
      have hq1' : idx + 1 ≤ q := by omega
      have hlr : ¬(l = VNode.nil ∧ r = VNode.nil) := by
        rintro ⟨hl0, hr0⟩
        rw [hl0] at hwl
        rw [hr0] at hwr
        simp only [wf, decide_eq_true_eq] at hwl hwr
        omega
      rw [if_neg hlr]
      have hdisteq : dist =
          euclidean_distance_squared (items.getD idx []) (items.getD q []) :=
        by rw [hdistdef, hq3]
      have htau1 : 0 ≤ st1.2 := tau_nonneg items target k st1 hk hv.1
      unfold searchChildren
      by_cases hside : q < (hi + idx) / 2
      · -- target in the left child's range: dist ≤ thr
        have hdle : dist ≤ thr := by
          rw [hdisteq]
          exact hbl q hq1' hside
        by_cases hb : dist < thr
        · rw [if_pos hb]
          have hst2eq : (if dist - st1.2 ≤ thr then
              searchNode items target k l st1 else st1) =
              searchNode items target k l st1 := if_pos (by linarith)
          rw [hst2eq]
          have hfound := ihl (idx + 1) ((hi + idx) / 2) hwl
            ⟨q, hq1', hside, hq3⟩ st1 hv.1
          have hinv2 := (hpl st1 hv.1).1
          by_cases hc2 : dist + (searchNode items target k l st1).2 ≥ thr
          · rw [if_pos hc2]
            exact (hpr _ hinv2).2 hfound
          · rw [if_neg hc2]
            exact hfound
        · rw [if_neg hb]
          have hdeq : dist = thr := le_antisymm hdle (not_lt.mp hb)
          set st2 := (if dist + st1.2 ≥ thr then
            searchNode items target k r st1 else st1) with hst2def
          have hinv2 : HeapInv items target k st2 := by
            rw [hst2def]
            by_cases hc1 : dist + st1.2 ≥ thr
            · rw [if_pos hc1]
              exact (hpr st1 hv.1).1
            · rw [if_neg hc1]
              exact hv.1
          have htau2 : 0 ≤ st2.2 := tau_nonneg items target k st2 hk hinv2
          have hentry : (if dist - st2.2 ≤ thr then
              searchNode items target k l st2 else st2) =
              searchNode items target k l st2 := if_pos (by linarith)
          rw [hentry]
          exact ihl (idx + 1) ((hi + idx) / 2) hwl ⟨q, hq1', hside, hq3⟩ st2
            hinv2
      · -- target in the right child's range: thr ≤ dist
        have hdge : thr ≤ dist := by
          rw [hdisteq]
          exact hbr q (by omega) hq2
        rw [if_neg (by linarith)]
        have hst2eq : (if dist + st1.2 ≥ thr then
            searchNode items target k r st1 else st1) =
            searchNode items target k r st1 := if_pos (by linarith)
        rw [hst2eq]
        have hfound := ihr ((hi + idx) / 2) hi hwr ⟨q, by omega, hq2, hq3⟩
          st1 hv.1
        have hinv2 := (hpr st1 hv.1).1
        by_cases hc2 : dist - (searchNode items target k r st1).2 ≤ thr
        · rw [if_pos hc2]
          exact (hpl _ hinv2).2 hfound
        · rw [if_neg hc2]
          exact hfound

end VpTree

/-- Claim C4: for every point set, every pivot-choice sequence, and every
query equal to a point already indexed, `VpTree::search` returns distances
sorted in non-decreasing order and includes the identical point at
distance 0.  The hypotheses: at least one neighbor is requested (the
program always asks for `K + 1 ≥ 1`) and all points share the query's
dimensionality (the program indexes a single N × D buffer). -/
theorem claim_C4_theorem (pts : List Pt) (pick : ℕ → ℕ → ℕ) (target : Pt)
    (k : ℕ) (hk : 1 ≤ k) (hmem : target ∈ pts)
    (hdim : ∀ p ∈ pts, p.length = target.length) :
    (VpTree.search (VpTree.create pick pts).1 (VpTree.create pick pts).2
      target k).2.Sorted (· ≤ ·) ∧
    (target, (0 : ℚ)) ∈
      ((VpTree.search (VpTree.create pick pts).1 (VpTree.create pick pts).2
        target k).1.zip
       (VpTree.search (VpTree.create pick pts).1 (VpTree.create pick pts).2
        target k).2) := by
  obtain ⟨hblen, _, hbperm, hbwf⟩ := VpTree.buildFromPoints_spec pick
    pts.length pts 0 pts.length (by omega) (by omega) (le_refl _)
  have hmem' : target ∈ (VpTree.create pick pts).1 :=
    hbperm.mem_iff.mpr hmem
  have hdim' : ∀ p ∈ (VpTree.create pick pts).1, p.length = target.length :=
    fun p hp => hdim p (hbperm.mem_iff.mp hp)
  obtain ⟨q, hq, hget⟩ := List.mem_iff_getElem.mp hmem'
  have hqD : ((VpTree.create pick pts).1).getD q [] = target := by
    rw [List.getD_eq_getElem _ _ hq]
    exact hget
  have hql : q < pts.length := by
    have h2 : (VpTree.create pick pts).1.length = pts.length := hblen
    omega
  have hinit : VpTree.HeapInv (VpTree.create pick pts).1 target k
      ([], DBL_MAX) := by
    refine ⟨by simp, by simp, fun _ => rfl, fun h0 => ?_, by simp⟩
    exfalso
    simp at h0
    omega
  have hwf2 : VpTree.wf (VpTree.create pick pts).1 (VpTree.create pick pts).2
      0 pts.length = true := hbwf
  have hfin := VpTree.searchNode_finds (VpTree.create pick pts).1 target k
    hk hdim' (VpTree.create pick pts).2 0 pts.length hwf2
    ⟨q, Nat.zero_le q, hql, hqD⟩ ([], DBL_MAX) hinit
  have hinv := (VpTree.searchNode_spec (VpTree.create pick pts).1 target k
    hk (VpTree.create pick pts).2 0 pts.length hwf2 ([], DBL_MAX) hinit).1
  constructor
  · -- sortedness: the heap is sorted by non-increasing distance
    have hsorted := hinv.1
    unfold VpTree.search
    simp only [List.Sorted]
    rw [List.pairwise_reverse]
    rw [List.pairwise_map]
    exact hsorted.imp (fun h => h)
  · -- membership of the identical point at distance 0
    obtain ⟨e, he, he0, hec⟩ := hfin
    unfold VpTree.search
    have hzip : ((VpTree.searchNode (VpTree.create pick pts).1 target k
        (VpTree.create pick pts).2 ([], DBL_MAX)).1.map
          (fun e => (VpTree.create pick pts).1.getD e.1 [])).reverse.zip
        ((VpTree.searchNode (VpTree.create pick pts).1 target k
          (VpTree.create pick pts).2 ([], DBL_MAX)).1.map
            (fun e => e.2)).reverse =
        ((VpTree.searchNode (VpTree.create pick pts).1 target k
          (VpTree.create pick pts).2 ([], DBL_MAX)).1.map
            (fun e => ((VpTree.create pick pts).1.getD e.1 [], e.2))).reverse
        := by
      rw [← List.map_reverse, ← List.map_reverse, List.zip_map',
        List.map_reverse]
    rw [hzip, List.mem_reverse]
    exact List.mem_map.mpr ⟨e, he, by rw [hec, he0]⟩

/-- Witness for C4 on two 1-dimensional points. -/
theorem claim_C4_witness :
    ((1 : ℕ) ≤ 1) ∧ (([1] : Pt) ∈ [[(0 : ℚ)], [1]]) ∧
    (∀ p ∈ ([[(0 : ℚ)], [1]] : List Pt), p.length = ([1] : Pt).length) ∧
    ((VpTree.search (VpTree.create (fun _ _ => 0) [[(0 : ℚ)], [1]]).1
      (VpTree.create (fun _ _ => 0) [[(0 : ℚ)], [1]]).2 [1] 1).2.Sorted
        (· ≤ ·) ∧
    (([1] : Pt), (0 : ℚ)) ∈
      ((VpTree.search (VpTree.create (fun _ _ => 0) [[(0 : ℚ)], [1]]).1
        (VpTree.create (fun _ _ => 0) [[(0 : ℚ)], [1]]).2 [1] 1).1.zip
       (VpTree.search (VpTree.create (fun _ _ => 0) [[(0 : ℚ)], [1]]).1
        (VpTree.create (fun _ _ => 0) [[(0 : ℚ)], [1]]).2 [1] 1).2)) := by
  have hmem : ([1] : Pt) ∈ [[(0 : ℚ)], [1]] := by simp
  have hdim : ∀ p ∈ ([[(0 : ℚ)], [1]] : List Pt),
      p.length = ([1] : Pt).length := by
    intro p hp
    rcases List.mem_cons.mp hp with h | h
    · simp [h]
    · simp [List.mem_singleton.mp h]
  exact ⟨le_refl 1, hmem, hdim,
    claim_C4_theorem [[(0 : ℚ)], [1]] (fun _ _ => 0) [1] 1 (le_refl 1) hmem
      hdim⟩

/-- Claim C5 counterexample: searching an empty indexed set with `k = 1`
is not rejected — `VpTree::search` runs to completion and silently returns
the empty (truncated) result; no precondition check exists anywhere on the
search path (vptree.h lines 83-113), nor in `computeGaussianPerplexity`'s
entry (tsne.cpp lines 333-341), which only warns when `perplexity > K`. -/
theorem claim_C5_counterexample :
    VpTree.search (VpTree.create (fun _ _ => 0) []).1
      (VpTree.create (fun _ _ => 0) []).2 [0] 1 = ([], []) ∧
    ([] : List Pt).length < 1 := by
  constructor
  · rw [VpTree.create, VpTree.buildFromPoints]
    simp [VpTree.search, VpTree.searchNode]
  · simp

/-- Claim C5 (amended): malformed inputs are not rejected.  Searching an
empty index returns the empty result pair for every query and every `k`,
and a request for more neighbors than there are points silently returns
just the available points: on the two-point set with `k = 5` the search
completes and yields the 2 available results in sorted order. -/
theorem claim_C5_theorem :
    (∀ (pick : ℕ → ℕ → ℕ) (target : Pt) (k : ℕ),
      VpTree.search (VpTree.create pick []).1 (VpTree.create pick []).2
        target k = ([], [])) ∧
    VpTree.search (VpTree.create (fun _ _ => 0) [[(0 : ℚ)], [1]]).1
      (VpTree.create (fun _ _ => 0) [[(0 : ℚ)], [1]]).2 [1] 5 =
      ([[1], [0]], [0, 1]) := by
  constructor
  · intro pick target k
    rw [VpTree.create, VpTree.buildFromPoints]
    simp [VpTree.search, VpTree.searchNode]
  · have h11 : VpTree.buildFromPoints (fun _ _ => 0) [[(0 : ℚ)], [1]] 1 1 =
        ([[(0 : ℚ)], [1]], .nil) := by
      rw [VpTree.buildFromPoints]
      norm_num
    have h12 : VpTree.buildFromPoints (fun _ _ => 0) [[(0 : ℚ)], [1]] 1 2 =
        ([[(0 : ℚ)], [1]], .node 1 0 .nil .nil) := by
      rw [VpTree.buildFromPoints]
      norm_num
    have h02 : VpTree.create (fun _ _ => 0) [[(0 : ℚ)], [1]] =
        ([[(0 : ℚ)], [1]], .node 0 1 .nil (.node 1 0 .nil .nil)) := by
      rw [VpTree.create]
      rw [VpTree.buildFromPoints]
      norm_num [VpTree.listSwap, VpTree.sortRange,
        euclidean_distance_squared, h11, h12]
    rw [h02]
    have hne : VpTree.VNode.node 1 0 VpTree.VNode.nil VpTree.VNode.nil ≠
        VpTree.VNode.nil := fun h => VpTree.VNode.noConfusion h
    norm_num [VpTree.search, VpTree.searchNode, VpTree.visit,
      VpTree.heapPush, VpTree.heapPop, VpTree.heapTopD,
      euclidean_distance_squared, DBL_MAX, if_neg hne]
